import Mathlib

/-!
Shallow embedding of the PII cross-reference service (`src/pii_service.py`)
and proofs about its specification: the BSN checksum recognizer, the lexicon
filters, email-to-name extraction, whole-word case-insensitive literal
search, and the two-pass cross-reference engine.

Modelling conventions.

* Python strings are `List Char`.  Python `str.lower`, `str.isalpha`,
  `str.strip` and the regex classes `\b`/`\w` are modelled at the ASCII
  level through `Char.toLower`, `Char.isAlpha`, `Char.isWhitespace` and
  `Char.isAlphanum`.
* A finding dictionary is a record of optional fields; `dict.get(k, d)`
  becomes `Option.getD` and `dict.get(k)` a comparison with `none`.
* `re.compile(r'\b' + re.escape(value) + r'\b', re.IGNORECASE)` compiles the
  *escaped* value, so the pattern matches the value as a case-insensitive
  literal between word boundaries; `finditer` scans left to right and
  resumes after each match, which `finditer` below reproduces exactly.
* The `try/except re.error` around the compile call (the only fallible
  library call in the engine) is modelled by an explicit failure oracle
  `o : List Char → Bool` threaded through the engine, `o v = true` meaning
  that compiling the pattern built from `v` raises `re.error`.  For the
  actual program the oracle is constantly `false` (`noFail` below), because
  compiling an escaped literal cannot fail.
-/

abbrev Str := List Char

/-- Convert a Lean string literal to the `List Char` representation. -/
def str (s : String) : Str := s.data

/-- Python `s.lower()`, and the effect of `re.IGNORECASE`, at the ASCII level. -/
def lc (s : Str) : Str := s.map Char.toLower

/-- The regex word class `\w` at the ASCII level: letters, digits, underscore. -/
def isWordChar (c : Char) : Bool := c.isAlphanum || c == '_'

/-- Whether the character at offset `i` of the document is a word character
(out-of-range offsets count as non-word). -/
def wordAt (text : Str) (i : Nat) : Bool :=
  match text[i]? with
  | some c => isWordChar c
  | none => false

/-- Whether the character just before offset `i` is a word character. -/
def wordBefore (text : Str) (i : Nat) : Bool :=
  match i with
  | 0 => false
  | j + 1 => wordAt text j

/-- The regex `\b` assertion at offset `i`: exactly one of the neighbouring
positions holds a word character. -/
def wordBoundary (text : Str) (i : Nat) : Bool :=
  wordBefore text i != wordAt text i

/-- Python slice `text[i : i + len]`. -/
def sliceAt (text : Str) (i len : Nat) : Str := (text.drop i).take len

/-- One attempt of the compiled pattern `\b<escaped value>\b` (IGNORECASE) at
offset `i`: the slice of the value's length starting at `i` must compare
equal case-insensitively and both ends must sit on word boundaries. -/
def matchesAt (text v : Str) (i : Nat) : Bool :=
  decide (i + v.length ≤ text.length) && wordBoundary text i &&
    wordBoundary text (i + v.length) && (lc (sliceAt text i v.length) == lc v)

/-- The scan loop of `re.finditer`: try offsets left to right, emit each
match `(start, end, group)` and resume at its end (one past it for an empty
match, as CPython does).  The fuel argument bounds the number of scan steps;
`finditer` supplies enough fuel for the whole document. -/
def finditerAux (text v : Str) : Nat → Nat → List (Nat × Nat × Str)
  | _, 0 => []
  | i, fuel + 1 =>
    if i + v.length ≤ text.length then
      if matchesAt text v i then
        (i, i + v.length, sliceAt text i v.length) ::
          finditerAux text v (if v.length == 0 then i + 1 else i + v.length) fuel
      else finditerAux text v (i + 1) fuel
    else []

/-- `re.finditer` over the whole document. -/
def finditer (text v : Str) : List (Nat × Nat × Str) :=
  finditerAux text v 0 (text.length + 1)

/-- `SKIP_WORDS` from `pii_service.py`: common Dutch words, field labels and
literals that must not seed value propagation. -/
def SKIP_WORDS : List String :=
  ["de", "het", "een", "van", "in", "op", "te", "en", "is", "dat", "die", "voor",
   "met", "zijn", "naar", "aan", "bij", "uit", "als", "maar", "nog", "wel", "niet",
   "ook", "dan", "kan", "moet", "zou", "zal", "heeft", "wordt", "werd", "geen",
   "meer", "veel", "goed", "naam", "naam:", "email", "telefoon", "adres", "straat",
   "true", "false", "null", "none", "yes", "no", "the", "and", "for", "with"]

/-- `TUSSENVOEGSELS` from `pii_service.py`: Dutch grammatical prefixes that
must not stand alone as propagated names. -/
def TUSSENVOEGSELS : List String :=
  ["van", "de", "den", "der", "het", "ten", "ter", "te", "in", "op",
   "aan", "bij", "tot", "uit", "von", "la", "le", "du", "des"]

/-- Lowercase a character list and pack it as a `String`, for membership
tests against the lexicon sets (Python `value.lower() in SKIP_WORDS`). -/
def lcStr (s : Str) : String := String.mk (lc s)

/-- A finding dictionary: every field may be absent. -/
structure Finding where
  entity_type : Option String := none
  start : Option Int := none
  «end» : Option Int := none
  score : Option ℚ := none
  text : Option Str := none
  source : Option String := none
  reason : Option String := none
deriving DecidableEq, Repr

/-- Python `f.get("text", "")`. -/
def getText (f : Finding) : Str := f.text.getD []

/-- Python `f.get("start", 0)`. -/
def startD (f : Finding) : Int := f.start.getD 0

/-- Python `f.get("end", 0)`. -/
def endD (f : Finding) : Int := f.«end».getD 0

/-- Membership of offset `i` in the covered set built by
`find_additional_occurrences` from the ranges of the existing findings. -/
def covers (fs : List Finding) (i : Nat) : Bool :=
  fs.any fun f => decide (startD f ≤ (i : Int) ∧ (i : Int) < endD f)

/-- Python `any(i in covered for i in range(s, e))`. -/
def overlapsCov (fs : List Finding) (s e : Nat) : Bool :=
  (List.range' s (e - s)).any (covers fs)

/-- `find_additional_occurrences(text, value, existing_findings)`: reject
values shorter than 3 characters, give up silently if the pattern cannot be
compiled, and otherwise keep every scan match whose span shares no offset
with a range of the existing findings. -/
def find_additional_occurrences (o : Str → Bool) (text value : Str)
    (existing_findings : List Finding) : List (Nat × Nat × Str) :=
  if value.length < 3 then []
  else if o value then []
  else (finditer text value).filter fun t => !overlapsCov existing_findings t.1 t.2.1

/-- The character class `[._\-]` used by `re.split` on the email local part. -/
def isDelim (c : Char) : Bool := c == '.' || c == '_' || c == '-'

/-- `re.split(r'[._\-]', s)` : split at every delimiter character, keeping
empty segments (the result is never empty). -/
def splitDelims : Str → List Str
  | [] => [[]]
  | c :: cs =>
    if isDelim c then [] :: splitDelims cs
    else
      match splitDelims cs with
      | [] => [[c]]
      | p :: ps => (c :: p) :: ps

/-- Python `s.strip()` at the ASCII level. -/
def pyStrip (s : Str) : Str :=
  ((s.dropWhile Char.isWhitespace).reverse.dropWhile Char.isWhitespace).reverse

/-- Python `s.isalpha()`: non-empty and all alphabetic. -/
def pyIsAlpha (s : Str) : Bool := !s.isEmpty && s.all Char.isAlpha

/-- `extract_names_from_email(email_text)`: take the part before the first
`@` (empty when there is no `@`), require it non-empty and of length at
least 3, split it on `.`/`_`/`-`, strip each part, and keep the parts of
length at least 2 that are alphabetic and in neither lexicon set. -/
def extract_names_from_email (email_text : Str) : List Str :=
  let lp := if email_text.contains '@' then email_text.takeWhile (fun c => c != '@') else []
  if lp.isEmpty || lp.length < 3 then []
  else
    (splitDelims lp).foldl
      (fun names part =>
        let part := pyStrip part
        if decide (2 ≤ part.length) && pyIsAlpha part &&
            !SKIP_WORDS.contains (lcStr part) && !TUSSENVOEGSELS.contains (lcStr part) then
          names ++ [part]
        else names) []

/-- The skip test of Pass 1: short values, stop words and grammatical
prefixes never seed a search. -/
def skipValue (v : Str) : Bool :=
  decide (v.length < 3) || SKIP_WORDS.contains (lcStr v) || TUSSENVOEGSELS.contains (lcStr v)

/-- The dictionary appended for an accepted Pass 1 occurrence. -/
def mkPass1 (f : Finding) (t : Nat × Nat × Str) : Finding :=
  { entity_type := some (f.entity_type.getD ""),
    start := some (t.1 : Int), «end» := some (t.2.1 : Int),
    score := some (f.score.getD (0.7 : ℚ)), text := some t.2.2,
    source := some "cross-reference", reason := some "value-propagation" }

/-- One iteration of the Pass 1 loop body for finding `f`, appending the
accepted occurrences of its value to the accumulator. -/
def pass1Step (o : Str → Bool) (text : Str) (findings : List Finding)
    (acc : List Finding) (f : Finding) : List Finding :=
  let value := getText f
  if skipValue value then acc
  else acc ++ (find_additional_occurrences o text value (findings ++ acc)).map (mkPass1 f)

/-- Pass 1 (value propagation) of `cross_reference`. -/
def additional_pass1 (o : Str → Bool) (text : Str) (findings : List Finding) : List Finding :=
  findings.foldl (pass1Step o text findings) []

/-- The dictionary appended for an accepted Pass 2 occurrence. -/
def mkPass2 (t : Nat × Nat × Str) : Finding :=
  { entity_type := some "PERSON", start := some (t.1 : Int), «end» := some (t.2.1 : Int),
    score := some (0.5 : ℚ), text := some t.2.2,
    source := some "cross-reference", reason := some "email-extraction" }

/-- The inner Pass 2 loop body for one candidate name. -/
def pass2Name (o : Str → Bool) (text : Str) (findings : List Finding)
    (acc : List Finding) (name : Str) : List Finding :=
  acc ++ (find_additional_occurrences o text name (findings ++ acc)).map mkPass2

/-- One iteration of the Pass 2 loop body for one email finding. -/
def pass2Step (o : Str → Bool) (text : Str) (findings : List Finding)
    (acc : List Finding) (ef : Finding) : List Finding :=
  (extract_names_from_email (getText ef)).foldl (pass2Name o text findings) acc

/-- Python `f.get("entity_type") in ("EMAIL_ADDRESS", "email")`. -/
def isEmail (f : Finding) : Bool :=
  f.entity_type == some "EMAIL_ADDRESS" || f.entity_type == some "email"

/-- The `/api/cross-reference` engine: Pass 1 (value propagation) over all
findings, then Pass 2 (email-derived name propagation) over the email
findings, returning the accumulated additional findings. -/
def cross_reference (o : Str → Bool) (text : Str) (findings : List Finding) : List Finding :=
  (findings.filter isEmail).foldl (pass2Step o text findings) (additional_pass1 o text findings)

/-- The failure oracle of the actual program: compiling an escaped literal
never raises `re.error`. -/
def noFail : Str → Bool := fun _ => false

/-- The two locals of the `cross_reference` handler, `(findings,
additional_findings)`, threaded explicitly through both passes: each loop
iteration reads the current value of the `findings` variable and rebinds
only the accumulator. -/
def cross_reference_state (o : Str → Bool) (text : Str) (findings : List Finding) :
    List Finding × List Finding :=
  let st1 := findings.foldl (fun st f => (st.1, pass1Step o text st.1 st.2 f)) (findings, [])
  (st1.1.filter isEmail).foldl (fun st f => (st.1, pass2Step o text st.1 st.2 f)) st1

/-- `re.match(r"^[0-9]{9}$", s)` : nine digits anchored at the start, with
`$` also accepting a single trailing newline (CPython `$` semantics). -/
def pyMatchNineDigits (s : Str) : Bool :=
  decide ((s.take 9).length = 9) && (s.take 9).all Char.isDigit &&
    (decide (s.length = 9) || (decide (s.length = 10) && s[9]? == some '\n'))

/-- Python `int(d)` for a digit character. -/
def digitVal (c : Char) : Int := (c.toNat : Int) - 48

/-- `BsnRecognizer.validate_result`: the eleven-residue checksum with weights
`9..2, -1`, rejecting a zero sum.  (On the ten-character trailing-newline
form Python would raise `ValueError` at `int('\n')`; that input never
reaches the validator, whose callers pass exactly nine digits.) -/
def BsnRecognizer.validate_result (pattern_text : Str) : Bool :=
  if !pyMatchNineDigits pattern_text then false
  else
    let d := pattern_text.map digitVal
    let total : Int :=
      9 * d.getD 0 0 + 8 * d.getD 1 0 + 7 * d.getD 2 0 +
        6 * d.getD 3 0 + 5 * d.getD 4 0 + 4 * d.getD 5 0 +
        3 * d.getD 6 0 + 2 * d.getD 7 0 - 1 * d.getD 8 0
    total % 11 == 0 && total != 0

/-- A candidate span as returned by the external pattern engine
(`super().analyze`), which is an input to the validation step. -/
structure RecognizerResult where
  entity_type : String
  start : Nat
  «end» : Nat
  score : ℚ
deriving DecidableEq, Repr

/-- `BsnRecognizer.analyze`: keep exactly the candidates whose matched text
passes the checksum, overriding their score with the fixed 0.85. -/
def BsnRecognizer.analyze (text : Str) (results : List RecognizerResult) :
    List RecognizerResult :=
  results.foldl
    (fun validated r =>
      let matched_text := sliceAt text r.start (r.«end» - r.start)
      if BsnRecognizer.validate_result matched_text then
        validated ++ [{ r with score := (0.85 : ℚ) }]
      else validated) []

/-- Case-equivalence of characters: equal after ASCII lowercasing. -/
def ceq (x y : Char) : Prop := Char.toLower x = Char.toLower y

/-- The character positions occupied by a finding (empty when `start ≥ end`). -/
def coversPos (f : Finding) (i : Int) : Prop := startD f ≤ i ∧ i < endD f

/-- Two findings share a character position. -/
def sharesPosition (f g : Finding) : Prop := ∃ i : Int, coversPos f i ∧ coversPos g i

/-- Claim C1 as stated: the union of the input findings and the additional
findings returned by the engine is pairwise free of shared character
positions. -/
def ClaimC1 (o : Str → Bool) (text : Str) (findings : List Finding) : Prop :=
  (findings ++ cross_reference o text findings).Pairwise fun f g => ¬ sharesPosition f g

/-- The Pass 1 seed condition of the specification: value of length at least
3 whose lowercase form is in neither lexicon set. -/
def seedCondition (f : Finding) : Bool :=
  decide (3 ≤ (getText f).length) && !SKIP_WORDS.contains (lcStr (getText f)) &&
    !TUSSENVOEGSELS.contains (lcStr (getText f))

/-- Specification-side overlap test: the candidate span `[s, e)` shares no
position with any (non-empty) range of the given findings. -/
def specDisjoint (fs : List Finding) (s e : Nat) : Bool :=
  fs.all fun g => decide (endD g ≤ startD g ∨ endD g ≤ (s : Int) ∨ (e : Int) ≤ startD g)

/-- Modelled from the amended claim C3: Pass 1 processes the findings in
order; exactly the findings satisfying `seedCondition` seed a search, and
for each seed every match of the left-to-right non-overlapping scan of its
literal value that shares no position with the coverage current at that
point is emitted, tagged from the originating finding. -/
def pass1Spec (text : Str) (findings : List Finding) : List Finding :=
  findings.foldl
    (fun acc f =>
      if seedCondition f then
        acc ++ ((finditer text (getText f)).filter fun t =>
          specDisjoint (findings ++ acc) t.1 t.2.1).map (mkPass1 f)
      else acc) []

/-- Claim C3 as stated (its completeness half, under the weakest reading of
"current coverage"): for every seeding finding, every case-insensitive
whole-word occurrence of its value that shares no position even with the
final coverage (input findings plus all returned additional findings) is
emitted as an additional finding. -/
def ClaimC3 (o : Str → Bool) (text : Str) (findings : List Finding) : Prop :=
  ∀ f ∈ findings, seedCondition f = true →
    ∀ s : Nat, matchesAt text (getText f) s = true →
      overlapsCov (findings ++ cross_reference o text findings) s (s + (getText f).length) = false →
      ∃ a ∈ cross_reference o text findings,
        a.start = some (s : Int) ∧ a.«end» = some ((s + (getText f).length : Nat) : Int)

/-- The name-candidate set that claim C4 describes: split the part before
the first `@` on the delimiters and keep a token iff it is alphabetic, has
length at least 2, and its lowercase form is in neither lexicon set (no
length requirement on the local part, no stripping). -/
def claimC4Candidates (email : Str) : List Str :=
  let lp := if email.contains '@' then email.takeWhile (fun c => c != '@') else []
  (splitDelims lp).filter fun t =>
    pyIsAlpha t && decide (2 ≤ t.length) &&
      !SKIP_WORDS.contains (lcStr t) && !TUSSENVOEGSELS.contains (lcStr t)

/-- Modelled from the amended claim C4: as `claimC4Candidates`, but the
local part must have length at least 3 (otherwise no candidates) and each
token is stripped of surrounding whitespace before the checks, the stripped
form being kept. -/
def extractNamesAmended (email : Str) : List Str :=
  let lp := if email.contains '@' then email.takeWhile (fun c => c != '@') else []
  if 3 ≤ lp.length then
    (splitDelims lp).filterMap fun t0 =>
      let t := pyStrip t0
      if decide (2 ≤ t.length) && pyIsAlpha t &&
          !SKIP_WORDS.contains (lcStr t) && !TUSSENVOEGSELS.contains (lcStr t) then
        some t
      else none
  else []

/-- Every scan match of value `v` shares a position with the coverage of
`E` — the state of a value whose propagation has completed. -/
def Processed (text : Str) (E : List Finding) (v : Str) : Prop :=
  ∀ t ∈ finditer text v, overlapsCov E t.1 t.2.1 = true

/-- The weighted BSN digit sum of claim C2 (digits `d0..d8`, weights
`9,8,7,6,5,4,3,2,-1`). -/
def bsnWeightedSum (s : Str) : Int :=
  9 * digitVal (s.getD 0 '0') + 8 * digitVal (s.getD 1 '0') + 7 * digitVal (s.getD 2 '0') +
    6 * digitVal (s.getD 3 '0') + 5 * digitVal (s.getD 4 '0') + 4 * digitVal (s.getD 5 '0') +
    3 * digitVal (s.getD 6 '0') + 2 * digitVal (s.getD 7 '0') - 1 * digitVal (s.getD 8 '0')

/-- An oracle that fails exactly on one value, for exercising the
per-value error path. -/
def failsOn (v : Str) : Str → Bool := fun u => u == v

/-- Example document: a name, a mobile-style token, an email, and a
lowercase repetition of the name. -/
def exText : Str := str "Jan x jan@ab.nl jan"

/-- Example input findings: the email span of `exText`. -/
def exFindings : List Finding :=
  [{ entity_type := some "EMAIL_ADDRESS", start := some 6, «end» := some 15,
     score := some (0.9 : ℚ), text := some (str "jan@ab.nl") }]

/-- Two input findings with overlapping ranges (the engine never checks the
input findings against each other). -/
def c1Findings : List Finding :=
  [{ start := some 0, «end» := some 2 }, { start := some 1, «end» := some 3 }]

/-- Document for the claim C3 counterexample: occurrences of `"a a"` overlap
each other, so the left-to-right scan skips one of them. -/
def c3Text : Str := str "a a a, a a"

/-- Findings for the claim C3 counterexample: a short finding covering
`[0, 2)` and the honest `"a a"` finding at `[7, 10)`. -/
def c3Findings : List Finding :=
  [{ start := some 0, «end» := some 2, text := some (str "a ") },
   { start := some 7, «end» := some 10, text := some (str "a a") }]

/-! ### Lemmas about the scan -/

theorem lc_length (s : Str) : (lc s).length = s.length := List.length_map s Char.toLower

theorem length_eq_of_lc_eq {v w : Str} (h : lc v = lc w) : v.length = w.length := by
  have := congrArg List.length h
  simpa [lc_length] using this

theorem matchesAt_congr (text : Str) {v w : Str} (h : lc v = lc w) (i : Nat) :
    matchesAt text v i = matchesAt text w i := by
  have hl : v.length = w.length := length_eq_of_lc_eq h
  simp only [matchesAt, hl, h]

theorem finditerAux_congr (text : Str) {v w : Str} (h : lc v = lc w) :
    ∀ fuel i, finditerAux text v i fuel = finditerAux text w i fuel := by
  have hl : v.length = w.length := length_eq_of_lc_eq h
  intro fuel
  induction fuel with
  | zero => intro i; rfl
  | succ n ih =>
    intro i
    simp only [finditerAux, hl, matchesAt_congr text h, ih]

theorem finditer_congr (text : Str) {v w : Str} (h : lc v = lc w) :
    finditer text v = finditer text w := by
  have hl : v.length = w.length := length_eq_of_lc_eq h
  simp only [finditer, hl, finditerAux_congr text h]

theorem finditerAux_mem {text v : Str} :
    ∀ {fuel i : Nat} {t : Nat × Nat × Str}, t ∈ finditerAux text v i fuel →
      i ≤ t.1 ∧ t.2.1 = t.1 + v.length ∧ t.1 + v.length ≤ text.length ∧
        matchesAt text v t.1 = true ∧ t.2.2 = sliceAt text t.1 v.length := by
  intro fuel
  induction fuel with
  | zero => intro i t h; simp [finditerAux] at h
  | succ n ih =>
    intro i t h
    simp only [finditerAux] at h
    split at h
    · rename_i hle
      split at h
      · rename_i hm
        rcases List.mem_cons.mp h with rfl | h2
        · exact ⟨Nat.le_refl _, rfl, hle, hm, rfl⟩
        · have h3 := ih h2
          refine ⟨?_, h3.2⟩
          have : i ≤ (if v.length == 0 then i + 1 else i + v.length) := by
            split <;> omega
          omega
      · have h3 := ih h
        exact ⟨by omega, h3.2⟩
    · simp at h

theorem finditer_mem {text v : Str} {t : Nat × Nat × Str} (h : t ∈ finditer text v) :
    t.2.1 = t.1 + v.length ∧ t.1 + v.length ≤ text.length ∧
      matchesAt text v t.1 = true ∧ t.2.2 = sliceAt text t.1 v.length :=
  (finditerAux_mem h).2

theorem matchesAt_lc_slice {text v : Str} {i : Nat} (h : matchesAt text v i = true) :
    lc (sliceAt text i v.length) = lc v := by
  simp only [matchesAt, Bool.and_eq_true, beq_iff_eq] at h
  exact h.2

theorem finditerAux_pairwise {text v : Str} (hv : 1 ≤ v.length) :
    ∀ (fuel i : Nat),
      (finditerAux text v i fuel).Pairwise fun a b => a.1 + v.length ≤ b.1 := by
  intro fuel
  have hz : (v.length == 0) = false := beq_eq_false_iff_ne.mpr (by omega)
  induction fuel with
  | zero => intro i; simp [finditerAux]
  | succ n ih =>
    intro i
    simp only [finditerAux, hz]
    split
    · split
      · refine List.pairwise_cons.mpr ⟨?_, ih _⟩
        intro t ht
        exact (finditerAux_mem ht).1
      · exact ih _
    · simp

theorem finditer_pairwise {text v : Str} (hv : 1 ≤ v.length) :
    (finditer text v).Pairwise fun a b => a.1 + v.length ≤ b.1 :=
  finditerAux_pairwise hv _ _

/-! ### Lemmas about the coverage test -/

theorem covers_of_mem {E : List Finding} {g : Finding} (hg : g ∈ E) {i : Nat}
    (h1 : startD g ≤ (i : Int)) (h2 : (i : Int) < endD g) : covers E i = true :=
  List.any_eq_true.mpr ⟨g, hg, decide_eq_true ⟨h1, h2⟩⟩

theorem covers_elim {E : List Finding} {i : Nat} (h : covers E i = true) :
    ∃ g ∈ E, startD g ≤ (i : Int) ∧ (i : Int) < endD g := by
  rcases List.any_eq_true.mp h with ⟨g, hg, hc⟩
  exact ⟨g, hg, of_decide_eq_true hc⟩

theorem covers_append_left {E : List Finding} (d : List Finding) {i : Nat}
    (h : covers E i = true) : covers (E ++ d) i = true := by
  rcases List.any_eq_true.mp h with ⟨g, hg, hc⟩
  exact List.any_eq_true.mpr ⟨g, List.mem_append_left d hg, hc⟩

theorem overlapsCov_intro {E : List Finding} {s e i : Nat} (h1 : s ≤ i) (h2 : i < e)
    (hc : covers E i = true) : overlapsCov E s e = true := by
  refine List.any_eq_true.mpr ⟨i, ?_, hc⟩
  rw [List.mem_range'_1]
  omega

theorem overlapsCov_elim {E : List Finding} {s e : Nat} (h : overlapsCov E s e = true) :
    ∃ i, s ≤ i ∧ i < e ∧ covers E i = true := by
  rcases List.any_eq_true.mp h with ⟨i, hi, hc⟩
  rw [List.mem_range'_1] at hi
  exact ⟨i, hi.1, by omega, hc⟩

theorem overlapsCov_mono {E F : List Finding}
    (hm : ∀ i, covers E i = true → covers F i = true) {s e : Nat}
    (h : overlapsCov E s e = true) : overlapsCov F s e = true := by
  rcases overlapsCov_elim h with ⟨i, h1, h2, hc⟩
  exact overlapsCov_intro h1 h2 (hm i hc)

theorem overlapsCov_append_left {E : List Finding} (d : List Finding) {s e : Nat}
    (h : overlapsCov E s e = true) : overlapsCov (E ++ d) s e = true :=
  overlapsCov_mono (fun _ hc => covers_append_left d hc) h

/-! ### Lemmas about `find_additional_occurrences` -/

theorem find_eq_nil_of_short {o : Str → Bool} {text v : Str} {E : List Finding}
    (h : v.length < 3) : find_additional_occurrences o text v E = [] := by
  simp [find_additional_occurrences, h]

theorem find_eq_nil_of_fail {o : Str → Bool} {text v : Str} {E : List Finding}
    (h : o v = true) : find_additional_occurrences o text v E = [] := by
  unfold find_additional_occurrences
  split
  · rfl
  · simp [h]

theorem find_mem {o : Str → Bool} {text v : Str} {E : List Finding} {t : Nat × Nat × Str}
    (h : t ∈ find_additional_occurrences o text v E) :
    3 ≤ v.length ∧ o v = false ∧ t ∈ finditer text v ∧ overlapsCov E t.1 t.2.1 = false := by
  unfold find_additional_occurrences at h
  split at h
  · simp at h
  · split at h
    · simp at h
    · rcases List.mem_filter.mp h with ⟨h1, h2⟩
      refine ⟨by omega, by rename_i ho; simpa using ho, h1, by simpa using h2⟩

theorem Processed.mono {text : Str} {E F : List Finding} {v : Str} (h : Processed text E v)
    (hm : ∀ i, covers E i = true → covers F i = true) : Processed text F v :=
  fun t ht => overlapsCov_mono hm (h t ht)

theorem find_eq_nil_of_processed {o : Str → Bool} {text v : Str} {E F : List Finding}
    (hp : Processed text E v) (hm : ∀ i, covers E i = true → covers F i = true) :
    find_additional_occurrences o text v F = [] := by
  unfold find_additional_occurrences
  split
  · rfl
  · split
    · rfl
    · refine List.filter_eq_nil_iff.mpr ?_
      intro t ht
      simp [overlapsCov_mono hm (hp t ht)]

theorem find_post {o : Str → Bool} {text v : Str} {F acc : List Finding}
    (mk : Nat × Nat × Str → Finding)
    (hmk : ∀ t, startD (mk t) = (t.1 : Int) ∧ endD (mk t) = (t.2.1 : Int))
    (h3 : 3 ≤ v.length) (hof : o v = false)
    {t : Nat × Nat × Str} (ht : t ∈ finditer text v) :
    overlapsCov
      (F ++ (acc ++ (find_additional_occurrences o text v (F ++ acc)).map mk))
      t.1 t.2.1 = true := by
  rw [← List.append_assoc]
  by_cases hov : overlapsCov (F ++ acc) t.1 t.2.1 = true
  · exact overlapsCov_append_left _ hov
  · have hovf : overlapsCov (F ++ acc) t.1 t.2.1 = false := by
      revert hov; cases overlapsCov (F ++ acc) t.1 t.2.1 <;> simp
    have htf : t ∈ find_additional_occurrences o text v (F ++ acc) := by
      unfold find_additional_occurrences
      rw [if_neg (by omega), if_neg (by simp [hof])]
      exact List.mem_filter.mpr ⟨ht, by simp [hovf]⟩
    have hmem : mk t ∈ F ++ acc ++ (find_additional_occurrences o text v (F ++ acc)).map mk :=
      List.mem_append_right _ (List.mem_map_of_mem mk htf)
    have he : t.2.1 = t.1 + v.length := (finditer_mem ht).1
    refine overlapsCov_intro (Nat.le_refl t.1) (by omega) ?_
    refine covers_of_mem hmem ?_ ?_
    · rw [(hmk t).1]
    · rw [(hmk t).2]
      exact_mod_cast by omega

/-! ### Generic lemmas about the accumulator folds -/

theorem foldl_suffix_prop {α : Type} (step : List Finding → α → List Finding)
    (P : Finding → Prop) :
    ∀ (l : List α) (acc : List Finding),
      (∀ acc2 x, x ∈ l → ∃ d, step acc2 x = acc2 ++ d ∧ ∀ a ∈ d, P a) →
      ∃ D, l.foldl step acc = acc ++ D ∧ ∀ a ∈ D, P a := by
  intro l
  induction l with
  | nil => intro acc _; exact ⟨[], by simp⟩
  | cons x l2 ih =>
    intro acc h
    rcases h acc x (List.mem_cons_self x l2) with ⟨d, hd, hPd⟩
    rcases ih (acc ++ d) (fun a2 y hy => h a2 y (List.mem_cons_of_mem x hy)) with ⟨D, hD, hPD⟩
    refine ⟨d ++ D, ?_, ?_⟩
    · simp only [List.foldl_cons, hd, hD, List.append_assoc]
    · intro a ha
      rcases List.mem_append.mp ha with h1 | h2
      exacts [hPd a h1, hPD a h2]

theorem foldl_eq_nil {α : Type} (step : List Finding → α → List Finding) :
    ∀ l : List α, (∀ x ∈ l, step [] x = []) → l.foldl step [] = [] := by
  intro l
  induction l with
  | nil => intro _; rfl
  | cons x l2 ih =>
    intro h
    simp only [List.foldl_cons, h x (List.mem_cons_self x l2)]
    exact ih fun y hy => h y (List.mem_cons_of_mem x hy)

/-! ### Field computations for the appended dictionaries -/

theorem mkPass1_fields (f : Finding) (t : Nat × Nat × Str) :
    startD (mkPass1 f t) = (t.1 : Int) ∧ endD (mkPass1 f t) = (t.2.1 : Int) :=
  ⟨rfl, rfl⟩

theorem mkPass2_fields (t : Nat × Nat × Str) :
    startD (mkPass2 t) = (t.1 : Int) ∧ endD (mkPass2 t) = (t.2.1 : Int) :=
  ⟨rfl, rfl⟩

theorem getText_mkPass1 (f : Finding) (t : Nat × Nat × Str) :
    getText (mkPass1 f t) = t.2.2 := rfl

theorem getText_mkPass2 (t : Nat × Nat × Str) : getText (mkPass2 t) = t.2.2 := rfl

theorem skipValue_false_len {v : Str} (h : skipValue v = false) : 3 ≤ v.length := by
  simp only [skipValue, Bool.or_eq_false_iff, decide_eq_false_iff_not] at h
  omega

/-- Text of an occurrence accepted for value `v`: the matched slice, which is
case-equivalent to `v`. -/
theorem lc_getText_of_find {o : Str → Bool} {text v : Str} {E : List Finding}
    {t : Nat × Nat × Str} (h : t ∈ find_additional_occurrences o text v E) :
    lc t.2.2 = lc v := by
  rcases find_mem h with ⟨_, _, hfin, _⟩
  rcases finditer_mem hfin with ⟨_, _, hm, hsl⟩
  rw [hsl]
  exact matchesAt_lc_slice hm

theorem covers_extend_middle {A B C : List Finding} {i : Nat}
    (h : covers (A ++ B) i = true) : covers (A ++ (B ++ C)) i = true := by
  rw [← List.append_assoc]
  exact covers_append_left C h

theorem Processed_extend {text : Str} {A B C : List Finding} {v : Str}
    (h : Processed text (A ++ B) v) : Processed text (A ++ (B ++ C)) v :=
  h.mono fun _ hc => covers_extend_middle hc

/-! ### The Pass 1 accumulator invariant -/

theorem pass1_invariant (o : Str → Bool) (text : Str) (findings : List Finding) :
    ∀ (l : List Finding) (acc : List Finding),
      ∃ D, l.foldl (pass1Step o text findings) acc = acc ++ D ∧
        (∀ f ∈ l, skipValue (getText f) = false → o (getText f) = false →
          Processed text (findings ++ (acc ++ D)) (getText f)) ∧
        (∀ a ∈ D, ∃ f ∈ l, skipValue (getText f) = false ∧ o (getText f) = false ∧
          lc (getText a) = lc (getText f) ∧ a.entity_type = some (f.entity_type.getD "")) := by
  intro l
  induction l with
  | nil =>
    intro acc
    exact ⟨[], by simp, by simp, by simp⟩
  | cons f l2 ih =>
    intro acc
    by_cases hskip : skipValue (getText f) = true
    · have hstep : pass1Step o text findings acc f = acc := by
        simp [pass1Step, hskip]
      rcases ih acc with ⟨D, hD, hproc, hmem⟩
      refine ⟨D, by simp [List.foldl_cons, hstep, hD], ?_, ?_⟩
      · intro g hg hgs hgo
        rcases List.mem_cons.mp hg with rfl | hgl
        · rw [hskip] at hgs; cases hgs
        · exact hproc g hgl hgs hgo
      · intro a ha
        rcases hmem a ha with ⟨g, hgl, hrest⟩
        exact ⟨g, List.mem_cons_of_mem f hgl, hrest⟩
    · have hskipf : skipValue (getText f) = false := by
        revert hskip; cases skipValue (getText f) <;> simp
      have h3 : 3 ≤ (getText f).length := skipValue_false_len hskipf
      by_cases ho : o (getText f) = true
      · have hstep : pass1Step o text findings acc f = acc := by
          simp [pass1Step, hskipf, find_eq_nil_of_fail ho]
        rcases ih acc with ⟨D, hD, hproc, hmem⟩
        refine ⟨D, by simp [List.foldl_cons, hstep, hD], ?_, ?_⟩
        · intro g hg hgs hgo
          rcases List.mem_cons.mp hg with rfl | hgl
          · rw [ho] at hgo; cases hgo
          · exact hproc g hgl hgs hgo
        · intro a ha
          rcases hmem a ha with ⟨g, hgl, hrest⟩
          exact ⟨g, List.mem_cons_of_mem f hgl, hrest⟩
      · have hof : o (getText f) = false := by
          revert ho; cases o (getText f) <;> simp
        have hstep : pass1Step o text findings acc f =
            acc ++ (find_additional_occurrences o text (getText f)
              (findings ++ acc)).map (mkPass1 f) := by
          simp [pass1Step, hskipf]
        rcases ih (acc ++ (find_additional_occurrences o text (getText f)
            (findings ++ acc)).map (mkPass1 f)) with ⟨D, hD, hproc, hmem⟩
        refine ⟨(find_additional_occurrences o text (getText f)
            (findings ++ acc)).map (mkPass1 f) ++ D, ?_, ?_, ?_⟩
        · rw [List.foldl_cons, hstep, hD, List.append_assoc]
        · intro g hg hgs hgo
          rcases List.mem_cons.mp hg with rfl | hgl
          · intro t ht
            have h1 := @find_post o text (getText g) findings acc (mkPass1 g)
              (mkPass1_fields g) h3 hof t ht
            rw [← List.append_assoc] at h1 ⊢
            rw [← List.append_assoc]
            exact overlapsCov_append_left D h1
          · have h2 := hproc g hgl hgs hgo
            rw [List.append_assoc] at h2
            exact h2
        · intro a ha
          rcases List.mem_append.mp ha with h1 | h2
          · rcases List.mem_map.mp h1 with ⟨t, htf, rfl⟩
            refine ⟨f, List.mem_cons_self f l2, hskipf, hof, ?_, rfl⟩
            rw [getText_mkPass1]
            exact lc_getText_of_find htf
          · rcases hmem a h2 with ⟨g, hgl, hrest⟩
            exact ⟨g, List.mem_cons_of_mem f hgl, hrest⟩

/-! ### The Pass 2 accumulator invariants -/

theorem pass2Name_invariant (o : Str → Bool) (text : Str) (findings : List Finding) :
    ∀ (ns : List Str) (acc : List Finding),
      ∃ D, ns.foldl (pass2Name o text findings) acc = acc ++ D ∧
        (∀ n ∈ ns, o n = false → 3 ≤ n.length →
          Processed text (findings ++ (acc ++ D)) n) ∧
        (∀ a ∈ D, ∃ n ∈ ns, 3 ≤ n.length ∧ o n = false ∧
          lc (getText a) = lc n ∧ a.entity_type = some "PERSON") := by
  intro ns
  induction ns with
  | nil =>
    intro acc
    exact ⟨[], by simp, by simp, by simp⟩
  | cons n ns2 ih =>
    intro acc
    by_cases hlen : n.length < 3
    · have hstep : pass2Name o text findings acc n = acc := by
        simp [pass2Name, find_eq_nil_of_short hlen]
      rcases ih acc with ⟨D, hD, hproc, hmem⟩
      refine ⟨D, by simp [List.foldl_cons, hstep, hD], ?_, ?_⟩
      · intro m hm hmo hml
        rcases List.mem_cons.mp hm with rfl | hml2
        · omega
        · exact hproc m hml2 hmo hml
      · intro a ha
        rcases hmem a ha with ⟨m, hml, hrest⟩
        exact ⟨m, List.mem_cons_of_mem n hml, hrest⟩
    · have h3 : 3 ≤ n.length := by omega
      by_cases ho : o n = true
      · have hstep : pass2Name o text findings acc n = acc := by
          simp [pass2Name, find_eq_nil_of_fail ho]
        rcases ih acc with ⟨D, hD, hproc, hmem⟩
        refine ⟨D, by simp [List.foldl_cons, hstep, hD], ?_, ?_⟩
        · intro m hm hmo hml
          rcases List.mem_cons.mp hm with rfl | hml2
          · rw [ho] at hmo; cases hmo
          · exact hproc m hml2 hmo hml
        · intro a ha
          rcases hmem a ha with ⟨m, hml, hrest⟩
          exact ⟨m, List.mem_cons_of_mem n hml, hrest⟩
      · have hof : o n = false := by
          revert ho; cases o n <;> simp
        have hstep : pass2Name o text findings acc n =
            acc ++ (find_additional_occurrences o text n (findings ++ acc)).map mkPass2 := by
          simp [pass2Name]
        rcases ih (acc ++ (find_additional_occurrences o text n
            (findings ++ acc)).map mkPass2) with ⟨D, hD, hproc, hmem⟩
        refine ⟨(find_additional_occurrences o text n
            (findings ++ acc)).map mkPass2 ++ D, ?_, ?_, ?_⟩
        · rw [List.foldl_cons, hstep, hD, List.append_assoc]
        · intro m hm hmo hml
          rcases List.mem_cons.mp hm with rfl | hml2
          · intro t ht
            have h1 := @find_post o text m findings acc mkPass2
              mkPass2_fields h3 hof t ht
            rw [← List.append_assoc] at h1 ⊢
            rw [← List.append_assoc]
            exact overlapsCov_append_left D h1
          · have h2 := hproc m hml2 hmo hml
            rw [List.append_assoc] at h2
            exact h2
        · intro a ha
          rcases List.mem_append.mp ha with h1 | h2
          · rcases List.mem_map.mp h1 with ⟨t, htf, rfl⟩
            refine ⟨n, List.mem_cons_self n ns2, h3, hof, ?_, rfl⟩
            rw [getText_mkPass2]
            exact lc_getText_of_find htf
          · rcases hmem a h2 with ⟨m, hml, hrest⟩
            exact ⟨m, List.mem_cons_of_mem n hml, hrest⟩

theorem pass2Step_invariant (o : Str → Bool) (text : Str) (findings : List Finding) :
    ∀ (gs : List Finding) (acc : List Finding),
      ∃ D, gs.foldl (pass2Step o text findings) acc = acc ++ D ∧
        (∀ g ∈ gs, ∀ n ∈ extract_names_from_email (getText g), o n = false → 3 ≤ n.length →
          Processed text (findings ++ (acc ++ D)) n) ∧
        (∀ a ∈ D, ∃ g ∈ gs, ∃ n ∈ extract_names_from_email (getText g),
          3 ≤ n.length ∧ o n = false ∧ lc (getText a) = lc n ∧
            a.entity_type = some "PERSON") := by
  intro gs
  induction gs with
  | nil =>
    intro acc
    exact ⟨[], by simp, by simp, by simp⟩
  | cons g gs2 ih =>
    intro acc
    rcases pass2Name_invariant o text findings (extract_names_from_email (getText g)) acc
      with ⟨d0, hd0, hproc0, hmem0⟩
    have hstep : pass2Step o text findings acc g = acc ++ d0 := by
      rw [pass2Step, hd0]
    rcases ih (acc ++ d0) with ⟨D, hD, hproc, hmem⟩
    refine ⟨d0 ++ D, ?_, ?_, ?_⟩
    · rw [List.foldl_cons, hstep, hD, List.append_assoc]
    · intro g2 hg2 n hn hno hnl
      rcases List.mem_cons.mp hg2 with rfl | hgl
      · have h1 := hproc0 n hn hno hnl
        rw [← List.append_assoc acc d0 D]
        exact Processed_extend h1
      · have h2 := hproc g2 hgl n hn hno hnl
        rw [List.append_assoc] at h2
        exact h2
    · intro a ha
      rcases List.mem_append.mp ha with h1 | h2
      · rcases hmem0 a h1 with ⟨n, hn, hrest⟩
        exact ⟨g, List.mem_cons_self g gs2, n, hn, hrest⟩
      · rcases hmem a h2 with ⟨g2, hgl, hrest⟩
        exact ⟨g2, List.mem_cons_of_mem g hgl, hrest⟩

/-! ### Postconditions of one full `cross_reference` call -/

theorem cross_reference_split (o : Str → Bool) (text : Str) (findings : List Finding) :
    ∃ D2, cross_reference o text findings = additional_pass1 o text findings ++ D2 ∧
      ∀ a ∈ D2, ∃ g ∈ findings, isEmail g = true ∧
        ∃ n ∈ extract_names_from_email (getText g),
          3 ≤ n.length ∧ o n = false ∧ lc (getText a) = lc n ∧
            a.entity_type = some "PERSON" := by
  rcases pass2Step_invariant o text findings (findings.filter isEmail)
      (additional_pass1 o text findings) with ⟨D2, hD2, _, hmem2⟩
  refine ⟨D2, hD2, ?_⟩
  intro a ha
  rcases hmem2 a ha with ⟨g, hg, hrest⟩
  exact ⟨g, (List.mem_filter.mp hg).1, (List.mem_filter.mp hg).2, hrest⟩

theorem call1_post (o : Str → Bool) (text : Str) (findings : List Finding) :
    (∀ f ∈ findings, skipValue (getText f) = false → o (getText f) = false →
      Processed text (findings ++ cross_reference o text findings) (getText f)) ∧
    (∀ g ∈ findings, isEmail g = true →
      ∀ n ∈ extract_names_from_email (getText g), o n = false → 3 ≤ n.length →
        Processed text (findings ++ cross_reference o text findings) n) ∧
    (∀ a ∈ cross_reference o text findings,
      (∃ f ∈ findings, skipValue (getText f) = false ∧ o (getText f) = false ∧
        lc (getText a) = lc (getText f) ∧ a.entity_type = some (f.entity_type.getD "")) ∨
      (∃ g ∈ findings, isEmail g = true ∧ ∃ n ∈ extract_names_from_email (getText g),
        3 ≤ n.length ∧ o n = false ∧ lc (getText a) = lc n ∧
          a.entity_type = some "PERSON")) := by
  rcases pass1_invariant o text findings findings [] with ⟨D1, hD1, hproc1, hmem1⟩
  rw [List.nil_append] at hD1
  have hA1 : additional_pass1 o text findings = D1 := hD1
  rcases pass2Step_invariant o text findings (findings.filter isEmail)
      (additional_pass1 o text findings) with ⟨D2, hD2, hproc2, hmem2⟩
  have hA : cross_reference o text findings = D1 ++ D2 := by
    rw [cross_reference, hD2, hA1]
  refine ⟨?_, ?_, ?_⟩
  · intro f hf hfs hfo
    have h1 := hproc1 f hf hfs hfo
    rw [List.nil_append] at h1
    rw [hA]
    exact Processed_extend h1
  · intro g hg hge n hn hno hnl
    have h2 := hproc2 g (List.mem_filter.mpr ⟨hg, hge⟩) n hn hno hnl
    rw [hA1] at h2
    rw [hA]
    exact h2
  · intro a ha
    rw [hA] at ha
    rcases List.mem_append.mp ha with h1 | h2
    · rcases hmem1 a h1 with ⟨f, hf, hrest⟩
      exact Or.inl ⟨f, hf, hrest⟩
    · rcases hmem2 a h2 with ⟨g, hg, hrest⟩
      exact Or.inr ⟨g, (List.mem_filter.mp hg).1, (List.mem_filter.mp hg).2, hrest⟩

/-! ### ASCII case analysis for `Char.toLower` -/

theorem toNat_ofNat_small {n : Nat} (h : n < 55296) : (Char.ofNat n).toNat = n := by
  have hv : n.isValidChar := Or.inl h
  rw [Char.ofNat, dif_pos hv]
  rfl

theorem toNat_toLower (c : Char) :
    (Char.toLower c).toNat = if 65 ≤ c.toNat ∧ c.toNat ≤ 90 then c.toNat + 32 else c.toNat := by
  rw [Char.toLower]
  split
  · rename_i h
    exact toNat_ofNat_small (by omega)
  · rfl

theorem char_eq_of_toNat_eq {x y : Char} (h : x.toNat = y.toNat) : x = y :=
  Char.ext (UInt32.ext h)

theorem isAlpha_iff_toNat (c : Char) :
    c.isAlpha = true ↔ (65 ≤ c.toNat ∧ c.toNat ≤ 90) ∨ (97 ≤ c.toNat ∧ c.toNat ≤ 122) := by
  show (c.isUpper || c.isLower) = true ↔ _
  rw [Bool.or_eq_true]
  show (decide (c.val ≥ 65) && decide (c.val ≤ 90)) = true ∨
      (decide (c.val ≥ 97) && decide (c.val ≤ 122)) = true ↔ _
  simp only [Bool.and_eq_true, decide_eq_true_eq]
  constructor
  · rintro (⟨h1, h2⟩ | ⟨h1, h2⟩)
    · exact Or.inl ⟨h1, h2⟩
    · exact Or.inr ⟨h1, h2⟩
  · rintro (⟨h1, h2⟩ | ⟨h1, h2⟩)
    · exact Or.inl ⟨h1, h2⟩
    · exact Or.inr ⟨h1, h2⟩

/-- Two characters equal after lowercasing are equal, or both alphabetic. -/
theorem toLower_eq_cases {x y : Char} (h : Char.toLower x = Char.toLower y) :
    x = y ∨ (x.isAlpha = true ∧ y.isAlpha = true) := by
  have hn : (Char.toLower x).toNat = (Char.toLower y).toNat := by rw [h]
  rw [toNat_toLower, toNat_toLower] at hn
  by_cases hx : 65 ≤ x.toNat ∧ x.toNat ≤ 90
  · by_cases hy : 65 ≤ y.toNat ∧ y.toNat ≤ 90
    · rw [if_pos hx, if_pos hy] at hn
      exact Or.inl (char_eq_of_toNat_eq (by omega))
    · rw [if_pos hx, if_neg hy] at hn
      refine Or.inr ⟨(isAlpha_iff_toNat x).mpr (Or.inl hx), (isAlpha_iff_toNat y).mpr (Or.inr ?_)⟩
      omega
  · by_cases hy : 65 ≤ y.toNat ∧ y.toNat ≤ 90
    · rw [if_neg hx, if_pos hy] at hn
      refine Or.inr ⟨(isAlpha_iff_toNat x).mpr (Or.inr ?_), (isAlpha_iff_toNat y).mpr (Or.inl hy)⟩
      omega
    · rw [if_neg hx, if_neg hy] at hn
      exact Or.inl (char_eq_of_toNat_eq hn)

theorem beq_eq_false_of_alpha_ne {x c : Char} (hx : x.isAlpha = true)
    (hc : c.toNat < 65 ∨ (90 < c.toNat ∧ c.toNat < 97) ∨ 122 < c.toNat) :
    (x == c) = false ∧ (c == x) = false := by
  have hb := (isAlpha_iff_toNat x).mp hx
  have hne : x ≠ c := by
    intro hEq
    rw [hEq] at hb
    omega
  exact ⟨beq_eq_false_iff_ne.mpr hne, beq_eq_false_iff_ne.mpr (Ne.symm hne)⟩

theorem isDelim_eq_false_of_alpha {x : Char} (hx : x.isAlpha = true) : isDelim x = false := by
  have h1 := @beq_eq_false_of_alpha_ne x '.' hx (by left; decide)
  have h2 := @beq_eq_false_of_alpha_ne x '_' hx (by right; left; exact ⟨by decide, by decide⟩)
  have h3 := @beq_eq_false_of_alpha_ne x '-' hx (by left; decide)
  simp [isDelim, h1.1, h2.1, h3.1]

theorem isWhitespace_eq_false_of_alpha {x : Char} (hx : x.isAlpha = true) :
    x.isWhitespace = false := by
  have hb := (isAlpha_iff_toNat x).mp hx
  have hs : x ≠ ' ' := by intro hEq; rw [hEq] at hb; exact absurd hb (by decide)
  have ht : x ≠ '\t' := by intro hEq; rw [hEq] at hb; exact absurd hb (by decide)
  have hr : x ≠ '\r' := by intro hEq; rw [hEq] at hb; exact absurd hb (by decide)
  have hn : x ≠ '\n' := by intro hEq; rw [hEq] at hb; exact absurd hb (by decide)
  simp [Char.isWhitespace, hs, ht, hr, hn]

theorem ceq_isDelim {x y : Char} (h : ceq x y) : isDelim x = isDelim y := by
  rcases toLower_eq_cases h with rfl | ⟨hx, hy⟩
  · rfl
  · rw [isDelim_eq_false_of_alpha hx, isDelim_eq_false_of_alpha hy]

theorem ceq_isWhitespace {x y : Char} (h : ceq x y) : x.isWhitespace = y.isWhitespace := by
  rcases toLower_eq_cases h with rfl | ⟨hx, hy⟩
  · rfl
  · rw [isWhitespace_eq_false_of_alpha hx, isWhitespace_eq_false_of_alpha hy]

theorem ceq_isAlpha {x y : Char} (h : ceq x y) : x.isAlpha = y.isAlpha := by
  rcases toLower_eq_cases h with rfl | ⟨hx, hy⟩
  · rfl
  · rw [hx, hy]

theorem ceq_beq_at {x y : Char} (h : ceq x y) :
    (x == '@') = (y == '@') ∧ ('@' == x) = ('@' == y) := by
  rcases toLower_eq_cases h with rfl | ⟨hx, hy⟩
  · exact ⟨rfl, rfl⟩
  · have h1 := @beq_eq_false_of_alpha_ne x '@' hx (by left; decide)
    have h2 := @beq_eq_false_of_alpha_ne y '@' hy (by left; decide)
    rw [h1.1, h1.2, h2.1, h2.2]
    exact ⟨rfl, rfl⟩

/-! ### `Forall₂` congruences for case-equivalent strings -/

theorem lc_eq_iff_forall2 {s t : Str} : lc s = lc t ↔ List.Forall₂ ceq s t := by
  induction s generalizing t with
  | nil =>
    cases t with
    | nil => simp [lc]
    | cons y t2 => simp [lc]
  | cons x s2 ih =>
    cases t with
    | nil => simp [lc]
    | cons y t2 =>
      simp only [lc, List.map_cons, List.cons.injEq, List.forall₂_cons]
      exact and_congr Iff.rfl
        (by simpa [lc] using (show lc s2 = lc t2 ↔ List.Forall₂ ceq s2 t2 from ih))

theorem forall2_elem_at {s t : Str} (h : List.Forall₂ ceq s t) :
    List.elem '@' s = List.elem '@' t := by
  induction h with
  | nil => rfl
  | cons hxy h2 ih =>
    rename_i x y s2 t2
    rw [List.elem_cons, List.elem_cons, (ceq_beq_at hxy).2, ih]

theorem forall2_takeWhile_at {s t : Str} (h : List.Forall₂ ceq s t) :
    List.Forall₂ ceq (s.takeWhile fun c => c != '@') (t.takeWhile fun c => c != '@') := by
  induction h with
  | nil => exact List.Forall₂.nil
  | cons hxy h2 ih =>
    rename_i x y s2 t2
    rw [List.takeWhile_cons, List.takeWhile_cons]
    have : (x != '@') = (y != '@') := by
      rw [bne, bne, (ceq_beq_at hxy).1]
    rw [this]
    split
    · exact List.Forall₂.cons hxy ih
    · exact List.Forall₂.nil

theorem forall2_dropWhile_ws {s t : Str} (h : List.Forall₂ ceq s t) :
    List.Forall₂ ceq (s.dropWhile Char.isWhitespace) (t.dropWhile Char.isWhitespace) := by
  induction h with
  | nil => exact List.Forall₂.nil
  | cons hxy h2 ih =>
    rename_i x y s2 t2
    rw [List.dropWhile_cons, List.dropWhile_cons, ceq_isWhitespace hxy]
    split
    · exact ih
    · exact List.Forall₂.cons hxy h2

theorem forall2_pyStrip {s t : Str} (h : List.Forall₂ ceq s t) :
    List.Forall₂ ceq (pyStrip s) (pyStrip t) := by
  unfold pyStrip
  exact List.forall₂_reverse_iff.mpr
    (forall2_dropWhile_ws (List.forall₂_reverse_iff.mpr (forall2_dropWhile_ws h)))

theorem forall2_all_alpha {s t : Str} (h : List.Forall₂ ceq s t) :
    s.all Char.isAlpha = t.all Char.isAlpha := by
  induction h with
  | nil => rfl
  | cons hxy h2 ih =>
    rename_i x y s2 t2
    rw [List.all_cons, List.all_cons, ceq_isAlpha hxy, ih]

theorem forall2_pyIsAlpha {s t : Str} (h : List.Forall₂ ceq s t) :
    pyIsAlpha s = pyIsAlpha t := by
  have hie : s.isEmpty = t.isEmpty := by
    cases h with
    | nil => rfl
    | cons => rfl
  unfold pyIsAlpha
  rw [forall2_all_alpha h, hie]

theorem forall2_lcStr {s t : Str} (h : List.Forall₂ ceq s t) : lcStr s = lcStr t := by
  unfold lcStr
  rw [lc_eq_iff_forall2.mpr h]

theorem splitDelims_ne_nil (s : Str) : splitDelims s ≠ [] := by
  induction s with
  | nil => simp [splitDelims]
  | cons c cs ih =>
    rw [splitDelims]
    split
    · simp
    · split
      · simp
      · simp

theorem forall2_splitDelims {s t : Str} (h : List.Forall₂ ceq s t) :
    List.Forall₂ (List.Forall₂ ceq) (splitDelims s) (splitDelims t) := by
  induction h with
  | nil => exact List.Forall₂.cons List.Forall₂.nil List.Forall₂.nil
  | cons hxy h2 ih =>
    rename_i x y s2 t2
    rw [splitDelims, splitDelims, ceq_isDelim hxy]
    split
    · exact List.Forall₂.cons List.Forall₂.nil ih
    · cases hs : splitDelims s2 with
      | nil => exact absurd hs (splitDelims_ne_nil s2)
      | cons p ps =>
        cases ht : splitDelims t2 with
        | nil => exact absurd ht (splitDelims_ne_nil t2)
        | cons q qs =>
          rw [hs, ht] at ih
          rcases List.forall₂_cons.mp ih with ⟨hpq, hrest⟩
          exact List.Forall₂.cons (List.Forall₂.cons hxy hpq) hrest

theorem forall2_append_single {s t : List Str} {a b : Str}
    (h : List.Forall₂ (fun u v => lc u = lc v) s t) (hab : lc a = lc b) :
    List.Forall₂ (fun u v => lc u = lc v) (s ++ [a]) (t ++ [b]) := by
  induction h with
  | nil => exact List.Forall₂.cons hab List.Forall₂.nil
  | cons hxy h2 ih => exact List.Forall₂.cons hxy ih

theorem extract_fold_congr :
    ∀ {parts1 parts2 : List Str}, List.Forall₂ (List.Forall₂ ceq) parts1 parts2 →
      ∀ {acc1 acc2 : List Str}, List.Forall₂ (fun u v => lc u = lc v) acc1 acc2 →
        List.Forall₂ (fun u v => lc u = lc v)
          (parts1.foldl (fun names part =>
            let part := pyStrip part
            if decide (2 ≤ part.length) && pyIsAlpha part &&
                !SKIP_WORDS.contains (lcStr part) && !TUSSENVOEGSELS.contains (lcStr part) then
              names ++ [part]
            else names) acc1)
          (parts2.foldl (fun names part =>
            let part := pyStrip part
            if decide (2 ≤ part.length) && pyIsAlpha part &&
                !SKIP_WORDS.contains (lcStr part) && !TUSSENVOEGSELS.contains (lcStr part) then
              names ++ [part]
            else names) acc2) := by
  intro parts1 parts2 h
  induction h with
  | nil => intro acc1 acc2 hacc; exact hacc
  | cons hpq h2 ih =>
    rename_i p q ps qs
    intro acc1 acc2 hacc
    rw [List.foldl_cons, List.foldl_cons]
    have hsp := forall2_pyStrip hpq
    have hcond : (decide (2 ≤ (pyStrip p).length) && pyIsAlpha (pyStrip p) &&
        !SKIP_WORDS.contains (lcStr (pyStrip p)) &&
        !TUSSENVOEGSELS.contains (lcStr (pyStrip p))) =
        (decide (2 ≤ (pyStrip q).length) && pyIsAlpha (pyStrip q) &&
        !SKIP_WORDS.contains (lcStr (pyStrip q)) &&
        !TUSSENVOEGSELS.contains (lcStr (pyStrip q))) := by
      rw [hsp.length_eq, forall2_pyIsAlpha hsp, forall2_lcStr hsp]
    simp only
    rw [hcond]
    split
    · exact ih (forall2_append_single hacc (lc_eq_iff_forall2.mpr hsp))
    · exact ih hacc

theorem extract_tail_congr {lp1 lp2 : Str} (h : List.Forall₂ ceq lp1 lp2) :
    List.Forall₂ (fun u v => lc u = lc v)
      (if lp1.isEmpty || decide (lp1.length < 3) then []
       else (splitDelims lp1).foldl
        (fun names part =>
          let part := pyStrip part
          if decide (2 ≤ part.length) && pyIsAlpha part &&
              !SKIP_WORDS.contains (lcStr part) && !TUSSENVOEGSELS.contains (lcStr part) then
            names ++ [part]
          else names) [])
      (if lp2.isEmpty || decide (lp2.length < 3) then []
       else (splitDelims lp2).foldl
        (fun names part =>
          let part := pyStrip part
          if decide (2 ≤ part.length) && pyIsAlpha part &&
              !SKIP_WORDS.contains (lcStr part) && !TUSSENVOEGSELS.contains (lcStr part) then
            names ++ [part]
          else names) []) := by
  have hie : lp1.isEmpty = lp2.isEmpty := by
    cases h with
    | nil => rfl
    | cons => rfl
  rw [hie, h.length_eq]
  split
  · exact List.Forall₂.nil
  · exact extract_fold_congr (forall2_splitDelims h) List.Forall₂.nil

/-- Case-equivalent email texts yield pointwise case-equivalent name
candidates. -/
theorem extract_names_congr {e1 e2 : Str} (h : lc e1 = lc e2) :
    List.Forall₂ (fun u v => lc u = lc v)
      (extract_names_from_email e1) (extract_names_from_email e2) := by
  have h2 : List.Forall₂ ceq e1 e2 := lc_eq_iff_forall2.mp h
  have hlp : List.Forall₂ ceq
      (if e1.contains '@' then e1.takeWhile (fun c => c != '@') else [])
      (if e2.contains '@' then e2.takeWhile (fun c => c != '@') else []) := by
    rw [show e1.contains '@' = List.elem '@' e1 from rfl,
      show e2.contains '@' = List.elem '@' e2 from rfl, forall2_elem_at h2]
    split
    · exact forall2_takeWhile_at h2
    · exact List.Forall₂.nil
  exact extract_tail_congr hlp

theorem forall2_mem_right {R : Str → Str → Prop} :
    ∀ {s t : List Str}, List.Forall₂ R s t → ∀ b ∈ t, ∃ a ∈ s, R a b := by
  intro s t h
  induction h with
  | nil => intro b hb; cases hb
  | cons hxy h2 ih =>
    rename_i x y s2 t2
    intro b hb
    rcases List.mem_cons.mp hb with rfl | hb2
    · exact ⟨x, List.mem_cons_self x s2, hxy⟩
    · rcases ih b hb2 with ⟨a, ha, hr⟩
      exact ⟨a, List.mem_cons_of_mem x ha, hr⟩

/-! ### The second call finds nothing new -/

theorem find_eq_nil_of_processed_congr {o : Str → Bool} {text w v : Str} {E F : List Finding}
    (hvw : lc w = lc v) (hp : Processed text E v)
    (hm : ∀ i, covers E i = true → covers F i = true) :
    find_additional_occurrences o text w F = [] := by
  unfold find_additional_occurrences
  split
  · rfl
  · split
    · rfl
    · refine List.filter_eq_nil_iff.mpr ?_
      intro t ht
      rw [finditer_congr text hvw] at ht
      simp [overlapsCov_mono hm (hp t ht)]

theorem isEmail_of_type_getD {a f0 : Finding}
    (ht : a.entity_type = some (f0.entity_type.getD "")) (he : isEmail a = true) :
    isEmail f0 = true := by
  unfold isEmail at he ⊢
  rw [ht] at he
  rw [Bool.or_eq_true] at he
  rcases he with h1 | h1
  · have hx : f0.entity_type.getD "" = "EMAIL_ADDRESS" := by
      have := beq_iff_eq.mp h1
      exact Option.some.inj this
    cases hft : f0.entity_type with
    | none => rw [hft] at hx; exact absurd hx (by decide)
    | some s =>
      rw [hft] at hx
      simp only [Option.getD_some] at hx
      subst hx
      simp
  · have hx : f0.entity_type.getD "" = "email" := by
      have := beq_iff_eq.mp h1
      exact Option.some.inj this
    cases hft : f0.entity_type with
    | none => rw [hft] at hx; exact absurd hx (by decide)
    | some s =>
      rw [hft] at hx
      simp only [Option.getD_some] at hx
      subst hx
      simp

theorem covers_append_nil {E : List Finding} {i : Nat} (h : covers E i = true) :
    covers (E ++ []) i = true := by
  rwa [List.append_nil]

theorem call2_pass1_step_empty (text : Str) (findings : List Finding) :
    ∀ f ∈ findings ++ cross_reference noFail text findings,
      pass1Step noFail text (findings ++ cross_reference noFail text findings) [] f = [] := by
  rcases call1_post noFail text findings with ⟨hP1, hP2, hP3⟩
  intro f hf
  by_cases hskip : skipValue (getText f) = true
  · simp [pass1Step, hskip]
  · have hskipf : skipValue (getText f) = false := by
      revert hskip; cases skipValue (getText f) <;> simp
    have hfind : find_additional_occurrences noFail text (getText f)
        (findings ++ cross_reference noFail text findings) = [] := by
      rcases List.mem_append.mp hf with hfo | hfa
      · exact find_eq_nil_of_processed (hP1 f hfo hskipf rfl) fun i h => h
      · rcases hP3 f hfa with ⟨f0, hf0, hs0, _, hlc, _⟩ | ⟨g, hg, hge, n, hn, hn3, _, hlc, _⟩
        · exact find_eq_nil_of_processed_congr hlc (hP1 f0 hf0 hs0 rfl) fun i h => h
        · exact find_eq_nil_of_processed_congr hlc (hP2 g hg hge n hn rfl hn3) fun i h => h
    simp [pass1Step, hskipf, hfind]

theorem call2_pass2_step_empty (text : Str) (findings : List Finding) :
    ∀ g ∈ (findings ++ cross_reference noFail text findings).filter isEmail,
      pass2Step noFail text (findings ++ cross_reference noFail text findings) [] g = [] := by
  rcases call1_post noFail text findings with ⟨hP1, hP2, hP3⟩
  intro g hgf
  rcases List.mem_filter.mp hgf with ⟨hg, hge⟩
  rw [pass2Step]
  refine foldl_eq_nil _ _ ?_
  intro n hn
  rcases List.mem_append.mp hg with hgo | hga
  · -- an original email finding: its candidates were processed in Pass 2
    by_cases hn3 : n.length < 3
    · simp [pass2Name, find_eq_nil_of_short hn3]
    · have hfind := @find_eq_nil_of_processed noFail text n
        (findings ++ cross_reference noFail text findings)
        (findings ++ cross_reference noFail text findings)
        (hP2 g hgo hge n hn rfl (by omega)) fun i h => h
      simp [pass2Name, hfind]
  · -- an additional finding with an email entity type: it is a Pass 1 copy of
    -- an original email finding, so its candidates are case-equivalent to
    -- already-processed ones
    rcases hP3 g hga with ⟨f0, hf0, _, _, hlc, htype⟩ | ⟨_, _, _, _, _, _, _, _, htype⟩
    · have hge0 : isEmail f0 = true := isEmail_of_type_getD htype hge
      have hcongr := @extract_names_congr (getText f0) (getText g) hlc.symm
      rcases forall2_mem_right hcongr n hn with ⟨m, hm, hlcm⟩
      by_cases hn3 : n.length < 3
      · simp [pass2Name, find_eq_nil_of_short hn3]
      · have hm3 : 3 ≤ m.length := by
          have := length_eq_of_lc_eq hlcm
          omega
        have hfind := @find_eq_nil_of_processed_congr noFail text n m
          (findings ++ cross_reference noFail text findings)
          (findings ++ cross_reference noFail text findings)
          hlcm.symm (hP2 f0 hf0 hge0 m hm rfl hm3) fun i h => h
        simp [pass2Name, hfind]
    · have hfalse : isEmail g = false := by
        unfold isEmail
        rw [htype]
        decide
      rw [hfalse] at hge
      cases hge

/-! ### Pairwise disjointness of the accepted spans -/

theorem not_shares_of_uncovered {E : List Finding} {g : Finding} (hg : g ∈ E)
    {t : Nat × Nat × Str} (hov : overlapsCov E t.1 t.2.1 = false)
    {b : Finding} (hbs : startD b = (t.1 : Int)) (hbe : endD b = (t.2.1 : Int)) :
    ¬ sharesPosition g b := by
  rintro ⟨i, ⟨hg1, hg2⟩, ⟨hb1, hb2⟩⟩
  rw [hbs] at hb1
  rw [hbe] at hb2
  rcases (show ∃ j : Nat, (j : Int) = i ∧ t.1 ≤ j ∧ j < t.2.1 from
    ⟨i.toNat, by omega, by omega, by omega⟩) with ⟨j, hji, hj1, hj2⟩
  have hc : covers E j = true := covers_of_mem hg (by omega) (by omega)
  rw [overlapsCov_intro hj1 hj2 hc] at hov
  cases hov

theorem not_shares_mk_mk {b c : Finding} {t u : Nat × Nat × Str}
    (hbs : startD b = (t.1 : Int)) (hbe : endD b = (t.2.1 : Int))
    (hcs : startD c = (u.1 : Int)) (hce : endD c = (u.2.1 : Int))
    (h : t.2.1 ≤ u.1) : ¬ sharesPosition b c := by
  rintro ⟨i, ⟨h1, h2⟩, ⟨h3, h4⟩⟩
  rw [hbs] at h1
  rw [hbe] at h2
  rw [hcs] at h3
  rw [hce] at h4
  omega

theorem sharesPosition_symm {f g : Finding} (h : sharesPosition f g) : sharesPosition g f := by
  rcases h with ⟨i, h1, h2⟩
  exact ⟨i, h2, h1⟩

theorem disj_extend {o : Str → Bool} {text v : Str} {findings acc : List Finding}
    (mk : Nat × Nat × Str → Finding)
    (hmk : ∀ t, startD (mk t) = (t.1 : Int) ∧ endD (mk t) = (t.2.1 : Int))
    (hpair : acc.Pairwise fun a b => ¬ sharesPosition a b)
    (hdisj : ∀ f ∈ findings, ∀ a ∈ acc, ¬ sharesPosition f a) :
    (acc ++ (find_additional_occurrences o text v (findings ++ acc)).map mk).Pairwise
      (fun a b => ¬ sharesPosition a b) ∧
    (∀ f ∈ findings, ∀ a ∈ acc ++
      (find_additional_occurrences o text v (findings ++ acc)).map mk,
      ¬ sharesPosition f a) := by
  have hnew_old : ∀ g ∈ findings ++ acc,
      ∀ b ∈ (find_additional_occurrences o text v (findings ++ acc)).map mk,
      ¬ sharesPosition g b := by
    intro g hg b hb
    rcases List.mem_map.mp hb with ⟨t, htf, rfl⟩
    exact not_shares_of_uncovered hg (find_mem htf).2.2.2 (hmk t).1 (hmk t).2
  have hnew_pair : ((find_additional_occurrences o text v (findings ++ acc)).map mk).Pairwise
      fun a b => ¬ sharesPosition a b := by
    by_cases h3 : v.length < 3
    · rw [find_eq_nil_of_short h3]
      exact List.Pairwise.nil
    · have hfp : (find_additional_occurrences o text v (findings ++ acc)).Pairwise
          fun a b => a.1 + v.length ≤ b.1 := by
        unfold find_additional_occurrences
        rw [if_neg h3]
        split
        · exact List.Pairwise.nil
        · exact (finditer_pairwise (by omega)).sublist (List.filter_sublist _)
      rw [List.pairwise_map]
      refine hfp.imp_of_mem ?_
      intro t u htm hum hle
      have het : t.2.1 = t.1 + v.length := (find_mem htm).2.2.1 |> finditer_mem |>.1
      exact not_shares_mk_mk (hmk t).1 (hmk t).2 (hmk u).1 (hmk u).2 (by omega)
  constructor
  · rw [List.pairwise_append]
    refine ⟨hpair, hnew_pair, ?_⟩
    intro a ha b hb
    exact hnew_old a (List.mem_append_right findings ha) b hb
  · intro f hf a ha
    rcases List.mem_append.mp ha with h1 | h2
    · exact hdisj f hf a h1
    · exact hnew_old f (List.mem_append_left acc hf) a h2

theorem pass1Step_disj {o : Str → Bool} {text : Str} {findings acc : List Finding}
    (f : Finding)
    (hpair : acc.Pairwise fun a b => ¬ sharesPosition a b)
    (hdisj : ∀ g ∈ findings, ∀ a ∈ acc, ¬ sharesPosition g a) :
    ((pass1Step o text findings acc f).Pairwise fun a b => ¬ sharesPosition a b) ∧
    (∀ g ∈ findings, ∀ a ∈ pass1Step o text findings acc f, ¬ sharesPosition g a) := by
  simp only [pass1Step]
  split
  · exact ⟨hpair, hdisj⟩
  · exact disj_extend (mkPass1 f) (mkPass1_fields f) hpair hdisj

theorem pass2Name_disj {o : Str → Bool} {text : Str} {findings acc : List Finding}
    (n : Str)
    (hpair : acc.Pairwise fun a b => ¬ sharesPosition a b)
    (hdisj : ∀ g ∈ findings, ∀ a ∈ acc, ¬ sharesPosition g a) :
    ((pass2Name o text findings acc n).Pairwise fun a b => ¬ sharesPosition a b) ∧
    (∀ g ∈ findings, ∀ a ∈ pass2Name o text findings acc n, ¬ sharesPosition g a) := by
  unfold pass2Name
  exact disj_extend mkPass2 mkPass2_fields hpair hdisj

theorem foldl_preserves_disj {α : Type}
    (findings : List Finding) (step : List Finding → α → List Finding)
    (hstep : ∀ acc x,
      (acc.Pairwise fun a b => ¬ sharesPosition a b) →
      (∀ g ∈ findings, ∀ a ∈ acc, ¬ sharesPosition g a) →
      ((step acc x).Pairwise fun a b => ¬ sharesPosition a b) ∧
      (∀ g ∈ findings, ∀ a ∈ step acc x, ¬ sharesPosition g a)) :
    ∀ (l : List α) (acc : List Finding),
      (acc.Pairwise fun a b => ¬ sharesPosition a b) →
      (∀ g ∈ findings, ∀ a ∈ acc, ¬ sharesPosition g a) →
      ((l.foldl step acc).Pairwise fun a b => ¬ sharesPosition a b) ∧
      (∀ g ∈ findings, ∀ a ∈ l.foldl step acc, ¬ sharesPosition g a) := by
  intro l
  induction l with
  | nil => intro acc h1 h2; exact ⟨h1, h2⟩
  | cons x l2 ih =>
    intro acc h1 h2
    rcases hstep acc x h1 h2 with ⟨h3, h4⟩
    exact ih (step acc x) h3 h4

theorem cross_reference_disj (o : Str → Bool) (text : Str) (findings : List Finding) :
    ((cross_reference o text findings).Pairwise fun a b => ¬ sharesPosition a b) ∧
    (∀ g ∈ findings, ∀ a ∈ cross_reference o text findings, ¬ sharesPosition g a) := by
  have hp1 : ((additional_pass1 o text findings).Pairwise fun a b => ¬ sharesPosition a b) ∧
      (∀ g ∈ findings, ∀ a ∈ additional_pass1 o text findings, ¬ sharesPosition g a) :=
    foldl_preserves_disj findings (pass1Step o text findings)
      (fun acc f => pass1Step_disj f) findings [] List.Pairwise.nil (by simp)
  have hp2 := foldl_preserves_disj findings (pass2Step o text findings)
    (fun acc g h1 h2 =>
      foldl_preserves_disj findings (pass2Name o text findings)
        (fun acc2 n => pass2Name_disj n) (extract_names_from_email (getText g)) acc h1 h2)
    (findings.filter isEmail) (additional_pass1 o text findings) hp1.1 hp1.2
  rw [cross_reference]
  exact hp2

/-! ### Tag and well-formedness properties of the emitted findings -/

theorem pass1_suffix_tags (o : Str → Bool) (text : Str) (findings : List Finding)
    (P : Finding → Prop)
    (hP : ∀ f ∈ findings, ∀ t acc, t ∈ find_additional_occurrences o text (getText f)
      (findings ++ acc) → P (mkPass1 f t)) :
    ∀ a ∈ additional_pass1 o text findings, P a := by
  have hstep : ∀ acc2 f, f ∈ findings → ∃ d, pass1Step o text findings acc2 f = acc2 ++ d ∧
      ∀ a ∈ d, P a := by
    intro acc2 f hf
    simp only [pass1Step]
    split
    · exact ⟨[], by simp, by simp⟩
    · refine ⟨(find_additional_occurrences o text (getText f)
        (findings ++ acc2)).map (mkPass1 f), rfl, ?_⟩
      intro a ha
      rcases List.mem_map.mp ha with ⟨t, ht, rfl⟩
      exact hP f hf t acc2 ht
  rcases foldl_suffix_prop (pass1Step o text findings) P findings [] hstep with ⟨D, hD, hPD⟩
  intro a ha
  rw [additional_pass1, hD, List.nil_append] at ha
  exact hPD a ha

theorem pass2_suffix_tags (o : Str → Bool) (text : Str) (findings : List Finding)
    (P : Finding → Prop)
    (hP : ∀ n t acc, t ∈ find_additional_occurrences o text n (findings ++ acc) →
      P (mkPass2 t)) :
    ∃ a2, cross_reference o text findings = additional_pass1 o text findings ++ a2 ∧
      ∀ a ∈ a2, P a := by
  have hstepn : ∀ acc3 (n : Str), ∃ d, pass2Name o text findings acc3 n = acc3 ++ d ∧
      ∀ a ∈ d, P a := by
    intro acc3 n
    refine ⟨(find_additional_occurrences o text n (findings ++ acc3)).map mkPass2, rfl, ?_⟩
    intro a ha
    rcases List.mem_map.mp ha with ⟨t, ht, rfl⟩
    exact hP n t acc3 ht
  have hstep : ∀ acc2 (g : Finding), g ∈ findings.filter isEmail →
      ∃ d, pass2Step o text findings acc2 g = acc2 ++ d ∧ ∀ a ∈ d, P a := by
    intro acc2 g _
    rcases foldl_suffix_prop (pass2Name o text findings) P
        (extract_names_from_email (getText g)) acc2 (fun acc3 n _ => hstepn acc3 n)
      with ⟨d, hd, hPd⟩
    exact ⟨d, hd, hPd⟩
  rcases foldl_suffix_prop (pass2Step o text findings) P (findings.filter isEmail)
      (additional_pass1 o text findings) hstep with ⟨D, hD, hPD⟩
  exact ⟨D, hD, hPD⟩

/-! ## The claims -/

/-- C5 (confirmed): the cross-reference operation is a fixpoint: feeding the
input findings together with the additional findings of a first call back
into a second call yields an empty additional-findings list.  The failure
oracle is `noFail` because compiling an escaped literal never raises
`re.error` in the actual program. -/
theorem C5_cross_reference_idempotent (text : Str) (findings : List Finding) :
    cross_reference noFail text (findings ++ cross_reference noFail text findings) = [] := by
  have h1 : additional_pass1 noFail text
      (findings ++ cross_reference noFail text findings) = [] :=
    foldl_eq_nil _ _ (call2_pass1_step_empty text findings)
  rw [cross_reference, h1]
  exact foldl_eq_nil _ _ (call2_pass2_step_empty text findings)

/-- C5 witness: the fixpoint property evaluated at the example document and
findings. -/
theorem C5_witness :
    cross_reference noFail exText (exFindings ++ cross_reference noFail exText exFindings) = [] :=
  C5_cross_reference_idempotent exText exFindings

/-- C1 counterexample: with two overlapping input findings the union of
input and additional findings is not pairwise free of shared positions, so
the claim as stated (quantifying over every input findings list) fails: the
engine never checks the input findings against each other. -/
theorem C1_counterexample : ¬ ClaimC1 noFail [] c1Findings := by
  intro h
  rw [ClaimC1] at h
  have hcr : cross_reference noFail [] c1Findings = [] := by decide
  rw [hcr, List.append_nil] at h
  simp only [c1Findings] at h
  rcases List.pairwise_cons.mp h with ⟨h1, _⟩
  refine h1 { start := some 1, «end» := some 3 } (List.mem_cons_self _ _) ⟨1, ⟨?_, ?_⟩, ⟨?_, ?_⟩⟩
  · decide
  · decide
  · decide
  · decide

/-- C1 (corrected): no additional finding returned by the cross-reference
operation shares a character position with any input finding or with any
other additional finding; a candidate span is accepted only if it shares no
offset with the ranges covered by the input findings or by additional
findings accepted earlier, and partial overlap is disqualifying.  (When the
input findings are themselves pairwise disjoint the full union is therefore
pairwise disjoint; the unconditional claim fails on overlapping inputs, see
the counterexample.) -/
theorem C1_no_overlap_amended (o : Str → Bool) (text : Str) (findings : List Finding) :
    ((cross_reference o text findings).Pairwise fun a b => ¬ sharesPosition a b) ∧
    (∀ f ∈ findings, ∀ a ∈ cross_reference o text findings, ¬ sharesPosition f a) :=
  cross_reference_disj o text findings

/-- C1 witness: the amended no-overlap property evaluated at the example
document and findings. -/
theorem C1_witness :
    ((cross_reference noFail exText exFindings).Pairwise fun a b => ¬ sharesPosition a b) ∧
    (∀ f ∈ exFindings, ∀ a ∈ cross_reference noFail exText exFindings, ¬ sharesPosition f a) :=
  C1_no_overlap_amended noFail exText exFindings

/-- C6 (confirmed): every Pass 1 finding carries the originating finding's
entity type, the originating finding's score (0.7 when absent), source
`cross-reference` and reason `value-propagation`; every Pass 2 finding
carries entity type `PERSON`, score 0.5, source `cross-reference` and
reason `email-extraction`. -/
theorem C6_finding_tags (o : Str → Bool) (text : Str) (findings : List Finding) :
    ∃ a2, cross_reference o text findings = additional_pass1 o text findings ++ a2 ∧
      (∀ a ∈ additional_pass1 o text findings,
        a.source = some "cross-reference" ∧ a.reason = some "value-propagation" ∧
        ∃ f ∈ findings, a.entity_type = some (f.entity_type.getD "") ∧
          a.score = some (f.score.getD (0.7 : ℚ))) ∧
      (∀ a ∈ a2, a.source = some "cross-reference" ∧ a.reason = some "email-extraction" ∧
        a.entity_type = some "PERSON" ∧ a.score = some (0.5 : ℚ)) := by
  rcases pass2_suffix_tags o text findings
      (fun a => a.source = some "cross-reference" ∧ a.reason = some "email-extraction" ∧
        a.entity_type = some "PERSON" ∧ a.score = some (0.5 : ℚ))
      (fun n t acc _ => ⟨rfl, rfl, rfl, rfl⟩) with ⟨a2, ha2, hP2⟩
  refine ⟨a2, ha2, ?_, hP2⟩
  exact pass1_suffix_tags o text findings _
    (fun f hf t acc _ => ⟨rfl, rfl, f, hf, rfl, rfl⟩)

/-- C6 witness: the tagging property instantiated at the example document
and findings. -/
theorem C6_witness :
    ∃ a2, cross_reference noFail exText exFindings =
      additional_pass1 noFail exText exFindings ++ a2 ∧
      (∀ a ∈ additional_pass1 noFail exText exFindings,
        a.source = some "cross-reference" ∧ a.reason = some "value-propagation" ∧
        ∃ f ∈ exFindings, a.entity_type = some (f.entity_type.getD "") ∧
          a.score = some (f.score.getD (0.7 : ℚ))) ∧
      (∀ a ∈ a2, a.source = some "cross-reference" ∧ a.reason = some "email-extraction" ∧
        a.entity_type = some "PERSON" ∧ a.score = some (0.5 : ℚ)) :=
  C6_finding_tags noFail exText exFindings

/-- C9 (confirmed): every additional finding is a well-formed span of the
document: `0 ≤ start < end ≤ len(text)` and its text is the document slice
`text[start:end]`, case-preserved. -/
theorem C9_wellformed_spans (o : Str → Bool) (text : Str) (findings : List Finding) :
    ∀ a ∈ cross_reference o text findings, ∃ s e : Nat,
      a.start = some (s : Int) ∧ a.«end» = some (e : Int) ∧ s < e ∧ e ≤ text.length ∧
        a.text = some (sliceAt text s (e - s)) := by
  have hwf : ∀ (v : Str) (E : List Finding) (t : Nat × Nat × Str),
      t ∈ find_additional_occurrences o text v E →
      t.1 < t.2.1 ∧ t.2.1 ≤ text.length ∧ t.2.2 = sliceAt text t.1 (t.2.1 - t.1) := by
    intro v E t ht
    rcases find_mem ht with ⟨h3, _, hfin, _⟩
    rcases finditer_mem hfin with ⟨he, hb, _, hsl⟩
    have hd : t.2.1 - t.1 = v.length := by omega
    rw [hd]
    exact ⟨by omega, by omega, hsl⟩
  rcases pass2_suffix_tags o text findings
      (fun a => ∃ s e : Nat, a.start = some (s : Int) ∧ a.«end» = some (e : Int) ∧
        s < e ∧ e ≤ text.length ∧ a.text = some (sliceAt text s (e - s)))
      (fun n t acc ht => ⟨t.1, t.2.1, rfl, rfl, (hwf n _ t ht).1, (hwf n _ t ht).2.1,
        by rw [show (mkPass2 t).text = some t.2.2 from rfl, (hwf n _ t ht).2.2]⟩)
      with ⟨a2, ha2, hP2⟩
  have hP1 := pass1_suffix_tags o text findings
    (fun a => ∃ s e : Nat, a.start = some (s : Int) ∧ a.«end» = some (e : Int) ∧
      s < e ∧ e ≤ text.length ∧ a.text = some (sliceAt text s (e - s)))
    (fun f hf t acc ht => ⟨t.1, t.2.1, rfl, rfl, (hwf _ _ t ht).1, (hwf _ _ t ht).2.1,
      by rw [show (mkPass1 f t).text = some t.2.2 from rfl, (hwf _ _ t ht).2.2]⟩)
  intro a ha
  rw [ha2] at ha
  rcases List.mem_append.mp ha with h1 | h2
  · exact hP1 a h1
  · exact hP2 a h2

/-- C9 witness: well-formedness instantiated at a concrete additional
finding of the example document. -/
theorem C9_witness :
    ∃ s e : Nat,
      (Finding.mk (some "PERSON") (some ((0 : Nat) : Int)) (some ((3 : Nat) : Int))
        (some (0.5 : ℚ)) (some (sliceAt exText 0 3))
        (some "cross-reference") (some "email-extraction")).start = some (s : Int) ∧
      (Finding.mk (some "PERSON") (some ((0 : Nat) : Int)) (some ((3 : Nat) : Int))
        (some (0.5 : ℚ)) (some (sliceAt exText 0 3))
        (some "cross-reference") (some "email-extraction")).«end» = some (e : Int) ∧
      s < e ∧ e ≤ exText.length ∧
      (Finding.mk (some "PERSON") (some ((0 : Nat) : Int)) (some ((3 : Nat) : Int))
        (some (0.5 : ℚ)) (some (sliceAt exText 0 3))
        (some "cross-reference") (some "email-extraction")).text =
        some (sliceAt exText s (e - s)) :=
  C9_wellformed_spans noFail exText exFindings
    (Finding.mk (some "PERSON") (some ((0 : Nat) : Int)) (some ((3 : Nat) : Int))
      (some (0.5 : ℚ)) (some (sliceAt exText 0 3))
      (some "cross-reference") (some "email-extraction"))
    (show _ ∈ cross_reference noFail exText exFindings from List.mem_cons_self _ _)

/-! ### Pass 1 agrees with its amended specification -/

theorem seedCondition_eq (f : Finding) : seedCondition f = !skipValue (getText f) := by
  unfold seedCondition skipValue
  rw [Bool.not_or, Bool.not_or]
  have hd : (decide (3 ≤ (getText f).length)) = !decide ((getText f).length < 3) := by
    rcases Nat.lt_or_ge ((getText f).length) 3 with h | h
    · have h2 : ¬ 3 ≤ (getText f).length := by omega
      simp [h, h2]
    · have h2 : ¬ (getText f).length < 3 := by omega
      simp [h2, h]
  rw [hd]

theorem specDisjoint_eq {E : List Finding} {s e : Nat} (h : s < e) :
    specDisjoint E s e = !overlapsCov E s e := by
  cases hov : overlapsCov E s e with
  | true =>
    rcases overlapsCov_elim hov with ⟨i, h1, h2, hc⟩
    rcases covers_elim hc with ⟨g, hg, hg1, hg2⟩
    refine List.all_eq_false.mpr ⟨g, hg, ?_⟩
    simp only [decide_eq_true_eq, Bool.not_eq_true]
    push_neg
    exact ⟨by omega, by omega, by omega⟩
  | false =>
    refine List.all_eq_true.mpr ?_
    intro g hg
    rw [decide_eq_true_eq]
    by_contra hcon
    push_neg at hcon
    rcases hcon with ⟨hc1, hc2, hc3⟩
    rcases Int.le_total (startD g) (s : Int) with hcase | hcase
    · have hcov : covers E s = true := covers_of_mem hg (by omega) (by omega)
      rw [overlapsCov_intro (Nat.le_refl s) h hcov] at hov
      cases hov
    · have hj : ∃ j : Nat, (j : Int) = startD g ∧ s ≤ j ∧ j < e :=
        ⟨(startD g).toNat, by omega, by omega, by omega⟩
      rcases hj with ⟨j, hji, hj1, hj2⟩
      have hcov : covers E j = true := covers_of_mem hg (by omega) (by omega)
      rw [overlapsCov_intro hj1 hj2 hcov] at hov
      cases hov

theorem additional_pass1_eq_spec (text : Str) (findings : List Finding) :
    additional_pass1 noFail text findings = pass1Spec text findings := by
  rw [additional_pass1, pass1Spec]
  have hstep : ∀ (acc : List Finding) (f : Finding),
      pass1Step noFail text findings acc f =
        (if seedCondition f then
          acc ++ ((finditer text (getText f)).filter fun t =>
            specDisjoint (findings ++ acc) t.1 t.2.1).map (mkPass1 f)
        else acc) := by
    intro acc f
    rw [seedCondition_eq]
    simp only [pass1Step]
    cases hskip : skipValue (getText f) with
    | true => simp
    | false =>
      simp only [Bool.not_false, if_true]
      have h3 : 3 ≤ (getText f).length := skipValue_false_len hskip
      have hfind : find_additional_occurrences noFail text (getText f) (findings ++ acc) =
          (finditer text (getText f)).filter fun t =>
            specDisjoint (findings ++ acc) t.1 t.2.1 := by
        unfold find_additional_occurrences
        rw [if_neg (show ¬((getText f).length < 3) by omega),
          if_neg (show ¬(noFail (getText f) = true) by simp [noFail])]
        refine List.filter_congr ?_
        intro t ht
        have he : t.2.1 = t.1 + (getText f).length := (finditer_mem ht).1
        rw [specDisjoint_eq (show t.1 < t.2.1 by omega)]
      rw [hfind]
      simp
  have hfold : ∀ (l : List Finding) (acc : List Finding),
      l.foldl (pass1Step noFail text findings) acc =
        l.foldl (fun acc f =>
          if seedCondition f then
            acc ++ ((finditer text (getText f)).filter fun t =>
              specDisjoint (findings ++ acc) t.1 t.2.1).map (mkPass1 f)
          else acc) acc := by
    intro l
    induction l with
    | nil => intro acc; rfl
    | cons f l2 ih =>
      intro acc
      rw [List.foldl_cons, List.foldl_cons, hstep acc f, ih]
  exact hfold findings []

/-- C3 counterexample: in the document `"a a a, a a"` with coverage `[0, 2)`
and `[7, 10)` and seed value `"a a"`, the span `[2, 5)` is a case-insensitive
whole-word occurrence of the seed value sharing no position with any
coverage, yet it is not emitted: the left-to-right scan already consumed
offsets 0-2 for the (rejected) match at `[0, 3)` and resumes at offset 3.
So not every non-overlapping whole-word match is emitted. -/
theorem C3_counterexample : ¬ ClaimC3 noFail c3Text c3Findings := by
  intro h
  have h2 := h { start := some 7, «end» := some 10, text := some (str "a a") }
    (by decide) (by decide) 2 (by decide) (by decide)
  rcases h2 with ⟨a, ha, _⟩
  rw [show cross_reference noFail c3Text c3Findings = [] from by decide] at ha
  simp at ha

/-- C3 (corrected): Pass 1 equals its amended specification: exactly the
findings whose value has length at least 3 and whose lowercase form is in
neither lexicon set seed a search, and for each seed every match of the
left-to-right non-overlapping whole-word scan (`finditer` semantics: each
match resumes after the previous one) of its literal value that shares no
position with the coverage current at that point is emitted; in particular
a finding whose text is a stop word never seeds, whatever its length. -/
theorem C3_pass1_amended :
    (∀ (text : Str) (findings : List Finding),
      additional_pass1 noFail text findings = pass1Spec text findings) ∧
    (∀ f : Finding, SKIP_WORDS.contains (lcStr (getText f)) = true →
      seedCondition f = false) := by
  refine ⟨additional_pass1_eq_spec, ?_⟩
  intro f h
  unfold seedCondition
  rw [h]
  simp

/-- C3 witness: the amended Pass 1 specification at the example input, and
stop-word suppression for a finding whose text is the stop word `"naam"`. -/
theorem C3_witness :
    additional_pass1 noFail exText exFindings = pass1Spec exText exFindings ∧
    seedCondition { text := some (str "naam") } = false :=
  ⟨C3_pass1_amended.1 exText exFindings,
    C3_pass1_amended.2 { text := some (str "naam") } (by decide)⟩

theorem extract_foldl_filterMap :
    ∀ (parts : List Str) (acc : List Str),
      parts.foldl
        (fun names part =>
          let part := pyStrip part
          if decide (2 ≤ part.length) && pyIsAlpha part &&
              !SKIP_WORDS.contains (lcStr part) && !TUSSENVOEGSELS.contains (lcStr part) then
            names ++ [part]
          else names) acc =
      acc ++ parts.filterMap (fun t0 =>
        let t := pyStrip t0
        if decide (2 ≤ t.length) && pyIsAlpha t &&
            !SKIP_WORDS.contains (lcStr t) && !TUSSENVOEGSELS.contains (lcStr t) then
          some t
        else none) := by
  intro parts
  induction parts with
  | nil => intro acc; simp
  | cons p ps ih =>
    intro acc
    rw [List.foldl_cons, List.filterMap_cons]
    cases hcond : (decide (2 ≤ (pyStrip p).length) && pyIsAlpha (pyStrip p) &&
        !SKIP_WORDS.contains (lcStr (pyStrip p)) &&
        !TUSSENVOEGSELS.contains (lcStr (pyStrip p))) with
    | true =>
      simp only [hcond, if_true]
      rw [ih]
      simp [List.append_assoc]
    | false =>
      simp only [hcond, Bool.false_eq_true, if_false]
      exact ih acc

theorem extract_tail_amended (lp : Str) :
    (if lp.isEmpty || lp.length < 3 then []
     else (splitDelims lp).foldl
       (fun names part =>
         let part := pyStrip part
         if decide (2 ≤ part.length) && pyIsAlpha part &&
             !SKIP_WORDS.contains (lcStr part) && !TUSSENVOEGSELS.contains (lcStr part) then
           names ++ [part]
         else names) []) =
    (if 3 ≤ lp.length then
      (splitDelims lp).filterMap fun t0 =>
        let t := pyStrip t0
        if decide (2 ≤ t.length) && pyIsAlpha t &&
            !SKIP_WORDS.contains (lcStr t) && !TUSSENVOEGSELS.contains (lcStr t) then
          some t
        else none
     else []) := by
  by_cases h3 : 3 ≤ lp.length
  · rw [if_pos h3]
    have h0 : lp.isEmpty = false := by
      cases lp with
      | nil => simp at h3
      | cons a as => rfl
    rw [if_neg (show ¬((lp.isEmpty || decide (lp.length < 3)) = true) by
      rw [h0]
      simp
      omega)]
    rw [extract_foldl_filterMap, List.nil_append]
  · rw [if_neg h3]
    rw [if_pos (show (lp.isEmpty || decide (lp.length < 3)) = true by
      rw [Bool.or_eq_true]
      right
      simp
      omega)]

/-- C4 counterexample: for the email text `"ab@x.nl"` the code yields no
candidates (the local part `"ab"` is shorter than 3 characters, a guard the
claim omits), while the claim's candidate set is exactly `{"ab"}`. -/
theorem C4_counterexample :
    extract_names_from_email (str "ab@x.nl") ≠ claimC4Candidates (str "ab@x.nl") := by
  decide

/-- C4 (corrected): the candidate set is as claimed — tokens of the local
part before the first `@`, split on `.`/`_`/`-`, kept iff alphabetic, of
length at least 2 and in neither lexicon set — except that a local part
shorter than 3 characters yields no candidates at all, and each token is
stripped of surrounding whitespace before the checks (the stripped form is
kept).  The claim's example still holds: local part `"jan.de.vries"` yields
exactly `jan` and `vries`. -/
theorem C4_email_names_amended :
    (∀ email : Str, extract_names_from_email email = extractNamesAmended email) ∧
    extract_names_from_email (str "jan.de.vries@test.nl") = [str "jan", str "vries"] := by
  constructor
  · intro email
    rw [show extract_names_from_email email =
      (fun lp : Str => if lp.isEmpty || lp.length < 3 then []
        else (splitDelims lp).foldl
          (fun names part =>
            let part := pyStrip part
            if decide (2 ≤ part.length) && pyIsAlpha part &&
                !SKIP_WORDS.contains (lcStr part) &&
                !TUSSENVOEGSELS.contains (lcStr part) then
              names ++ [part]
            else names) [])
      (if email.contains '@' then email.takeWhile (fun c => c != '@') else []) from rfl]
    rw [show extractNamesAmended email =
      (fun lp : Str => if 3 ≤ lp.length then
          (splitDelims lp).filterMap fun t0 =>
            let t := pyStrip t0
            if decide (2 ≤ t.length) && pyIsAlpha t &&
                !SKIP_WORDS.contains (lcStr t) && !TUSSENVOEGSELS.contains (lcStr t) then
              some t
            else none
        else [])
      (if email.contains '@' then email.takeWhile (fun c => c != '@') else []) from rfl]
    exact extract_tail_amended _
  · decide

/-- C2 (confirmed): for every 9-digit string the validator accepts iff the
weighted sum with weights `9,8,7,6,5,4,3,2,-1` is divisible by 11 and
non-zero (so the all-zero string is rejected), and every surviving
candidate is assigned the fixed score 0.85 regardless of its base score. -/
theorem C2_bsn_checksum :
    (∀ s : Str, s.length = 9 → (∀ c ∈ s, c.isDigit = true) →
      (BsnRecognizer.validate_result s = true ↔
        bsnWeightedSum s % 11 = 0 ∧ bsnWeightedSum s ≠ 0)) ∧
    (∀ (text : Str) (results : List RecognizerResult),
      ∀ r ∈ BsnRecognizer.analyze text results, r.score = (0.85 : ℚ)) := by
  constructor
  · intro s hlen hdig
    rcases s with _ | ⟨d0, s⟩; · simp at hlen
    rcases s with _ | ⟨d1, s⟩; · simp at hlen
    rcases s with _ | ⟨d2, s⟩; · simp at hlen
    rcases s with _ | ⟨d3, s⟩; · simp at hlen
    rcases s with _ | ⟨d4, s⟩; · simp at hlen
    rcases s with _ | ⟨d5, s⟩; · simp at hlen
    rcases s with _ | ⟨d6, s⟩; · simp at hlen
    rcases s with _ | ⟨d7, s⟩; · simp at hlen
    rcases s with _ | ⟨d8, s⟩; · simp at hlen
    rcases s with _ | ⟨d9, s⟩
    · have hm : pyMatchNineDigits [d0, d1, d2, d3, d4, d5, d6, d7, d8] = true := by
        simp [pyMatchNineDigits, hdig d0 (by simp), hdig d1 (by simp), hdig d2 (by simp),
          hdig d3 (by simp), hdig d4 (by simp), hdig d5 (by simp), hdig d6 (by simp),
          hdig d7 (by simp), hdig d8 (by simp)]
      rw [BsnRecognizer.validate_result, hm]
      simp only [Bool.not_true, Bool.false_eq_true, if_false, bsnWeightedSum]
      simp [Bool.and_eq_true, beq_iff_eq, bne_iff_ne, List.getD]
    · simp at hlen
  · intro text results
    have hfold : ∀ (rs : List RecognizerResult) (acc : List RecognizerResult),
        (∀ r ∈ acc, r.score = (0.85 : ℚ)) →
        ∀ r ∈ rs.foldl (fun validated r =>
          if BsnRecognizer.validate_result (sliceAt text r.start (r.«end» - r.start)) then
            validated ++ [{ r with score := (0.85 : ℚ) }]
          else validated) acc, r.score = (0.85 : ℚ) := by
      intro rs
      induction rs with
      | nil => intro acc hacc r hr; exact hacc r hr
      | cons x rs2 ih =>
        intro acc hacc r hr
        rw [List.foldl_cons] at hr
        refine ih _ ?_ r hr
        intro r2 hr2
        split at hr2
        · rcases List.mem_append.mp hr2 with h1 | h1
          · exact hacc r2 h1
          · rcases List.mem_singleton.mp h1 with rfl
            rfl
        · exact hacc r2 hr2
    intro r hr
    exact hfold results [] (by simp) r hr

/-- C2 witness: `123456782` (weighted sum 154 = 14·11) validates; the
all-zero string is rejected because its weighted sum is zero. -/
theorem C2_witness :
    BsnRecognizer.validate_result (str "123456782") = true ∧
    BsnRecognizer.validate_result (str "000000000") = false := by
  constructor
  · exact (C2_bsn_checksum.1 (str "123456782") (by decide) (by decide)).mpr
      ⟨by decide, by decide⟩
  · have h := C2_bsn_checksum.1 (str "000000000") (by decide) (by decide)
    cases hv : BsnRecognizer.validate_result (str "000000000") with
    | false => rfl
    | true =>
      rcases h.mp hv with ⟨_, hne⟩
      exact absurd (by decide : bsnWeightedSum (str "000000000") = 0) hne

/-- C7 (confirmed): when compiling the search pattern for a value fails
(the failure oracle reports `re.error` for it), that value contributes no
occurrences, its Pass 1 iteration leaves the accumulator unchanged, and the
pass runs exactly as if the value's finding were absent from the iteration
while the remaining findings are still processed; the operation itself is
total by construction. -/
theorem C7_compile_failure_skipped (o : Str → Bool) (text : Str)
    (findings E : List Finding) (fs1 fs2 : List Finding) (f : Finding)
    (acc : List Finding) (h : o (getText f) = true) :
    find_additional_occurrences o text (getText f) E = [] ∧
    pass1Step o text findings acc f = acc ∧
    (fs1 ++ f :: fs2).foldl (pass1Step o text findings) acc =
      (fs1 ++ fs2).foldl (pass1Step o text findings) acc := by
  have h2 : ∀ acc2, pass1Step o text findings acc2 f = acc2 := by
    intro acc2
    simp only [pass1Step]
    split
    · rfl
    · rw [find_eq_nil_of_fail h]
      simp
  refine ⟨find_eq_nil_of_fail h, h2 acc, ?_⟩
  rw [List.foldl_append, List.foldl_append, List.foldl_cons, h2 _]

/-- C7 witness: with an oracle failing exactly on `"abc"`, a finding whose
value is `"abc"` contributes nothing and processing continues. -/
theorem C7_witness :
    find_additional_occurrences (failsOn (str "abc")) (str "abc abc")
      (getText ({ text := some (str "abc") } : Finding)) [] = [] ∧
    pass1Step (failsOn (str "abc")) (str "abc abc") []
      [] ({ text := some (str "abc") } : Finding) = [] ∧
    ([] ++ ({ text := some (str "abc") } : Finding) :: []).foldl
      (pass1Step (failsOn (str "abc")) (str "abc abc") []) [] =
      ([] ++ []).foldl (pass1Step (failsOn (str "abc")) (str "abc abc") []) [] := by
  have h := C7_compile_failure_skipped (failsOn (str "abc")) (str "abc abc") [] []
    [] [] ({ text := some (str "abc") } : Finding) [] (by decide)
  exact ⟨h.1, h.2.1, h.2.2⟩

theorem foldl_pair {α : Type} (g : List Finding → List Finding → α → List Finding) :
    ∀ (l : List α) (c acc : List Finding),
      l.foldl (fun st x => (st.1, g st.1 st.2 x)) (c, acc) = (c, l.foldl (g c) acc) := by
  intro l
  induction l with
  | nil => intro c acc; rfl
  | cons x l2 ih =>
    intro c acc
    rw [List.foldl_cons, List.foldl_cons]
    exact ih c (g c acc x)

/-- C8 (confirmed): threading the handler's two locals explicitly, the
`findings` variable read by every loop iteration is returned unchanged by
the whole operation — the engine only appends to its own accumulator — and
the accumulator component agrees with `cross_reference`. -/
theorem C8_no_mutation (o : Str → Bool) (text : Str) (findings : List Finding) :
    (cross_reference_state o text findings).1 = findings ∧
    (cross_reference_state o text findings).2 = cross_reference o text findings := by
  simp only [cross_reference_state]
  rw [foldl_pair (fun c acc f => pass1Step o text c acc f) findings findings []]
  rw [foldl_pair (fun c acc f => pass2Step o text c acc f)]
  exact ⟨rfl, rfl⟩

/-- C8 witness: the state-threaded engine at the example input. -/
theorem C8_witness :
    (cross_reference_state noFail exText exFindings).1 = exFindings ∧
    (cross_reference_state noFail exText exFindings).2 =
      cross_reference noFail exText exFindings :=
  C8_no_mutation noFail exText exFindings

/-- C10 (confirmed): the operation is total over findings with missing
fields (the embedding is total by construction, mirroring `dict.get`
defaults): a missing `text` defaults to the empty string, so the finding
seeds neither pass; missing `start` and `end` default to 0, so the finding
covers no character position; and a missing `score` makes every finding
propagated from it carry the 0.7 default. -/
theorem C10_missing_fields (o : Str → Bool) (text : Str) (F acc : List Finding)
    (f : Finding) :
    (f.text = none → pass1Step o text F acc f = acc ∧ pass2Step o text F acc f = acc) ∧
    (f.start = none → f.«end» = none → ∀ i : Nat, covers [f] i = false) ∧
    (f.score = none → ∀ t, (mkPass1 f t).score = some (0.7 : ℚ)) := by
  refine ⟨?_, ?_, ?_⟩
  · intro ht
    have hval : getText f = [] := by rw [getText, ht]; rfl
    constructor
    · simp [pass1Step, hval, skipValue]
    · rw [pass2Step, hval]
      rfl
  · intro hs he i
    simp only [covers, List.any_cons, List.any_nil, startD, endD, hs, he,
      Option.getD_none, Bool.or_false]
    rw [decide_eq_false_iff_not]
    omega
  · intro hsc t
    simp [mkPass1, hsc]

/-- C10 witness: the defaulting behaviour at the all-absent finding. -/
theorem C10_witness :
    pass1Step noFail exText exFindings []
      (Finding.mk none none none none none none none) = [] ∧
    pass2Step noFail exText exFindings []
      (Finding.mk none none none none none none none) = [] ∧
    covers [Finding.mk none none none none none none none] 0 = false ∧
    (mkPass1 (Finding.mk none none none none none none none)
      (0, 3, str "Jan")).score = some (0.7 : ℚ) := by
  have h := C10_missing_fields noFail exText exFindings []
    (Finding.mk none none none none none none none)
  exact ⟨(h.1 rfl).1, (h.1 rfl).2, h.2.1 rfl rfl 0, h.2.2 rfl (0, 3, str "Jan")⟩
